import Mathlib

/-!
Image prefetch: reference canonicalisation, manifest scan and the run-once protocol.

A shallow embedding of `extensions/prefetch/suite.go`.

Go strings are modelled as lists of characters.  Every delimiter the code looks
for (`/`, `.`, `:` and the token `image: `) is ASCII, and the Go calls involved
(`strings.IndexRune`, `strings.ContainsAny`, `strings.ContainsRune`,
`strings.Split`, slicing) then work position by position, so nothing depends on
how the other characters are encoded.  The empty Go string `""` is `[]`.
-/

namespace Prefetch

/-- A Go `string`. -/
abbrev Str := List Char

/-! ## Constants (suite.go, lines 34-38) -/

/-- The constant `defaultDomain = "docker.io"`. -/
def defaultDomain : Str := "docker.io".toList

/-- The constant `officialLib = "library"`. -/
def officialLib : Str := "library".toList

/-- The constant `defaultTag = ":latest"`. -/
def defaultTag : Str := ":latest".toList

/-! ## The `strings` functions used by `fullImageName` -/

/-- Go `strings.IndexRune(s, c)`: position of the first `c` in `s`; `none` stands for `-1`. -/
def indexRune : Str → Char → Option Nat
  | [], _ => none
  | x :: xs, c => if x = c then some 0 else (indexRune xs c).map (· + 1)

/-- Go `strings.ContainsAny(s, chars)`: some character of `chars` occurs in `s`. -/
def containsAny (s chars : Str) : Bool := s.any (fun c => chars.contains c)

/-- Go `strings.ContainsRune(s, c)`, which is `IndexRune(s, c) >= 0`. -/
def containsRune (s : Str) (c : Char) : Bool := (indexRune s c).isSome

/-- Go `strings.Split(s, sep)` for a one-character separator: the segments between
the occurrences of `sep` (a string without `sep` gives the single segment `s`). -/
def split : Str → Char → List Str
  | [], _ => [[]]
  | x :: xs, sep =>
    if x = sep then [] :: split xs sep
    else
      match split xs sep with
      | [] => [[x]]
      | seg :: rest => (x :: seg) :: rest

/-- Go `strings.HasSuffix(s, suffix)`. -/
def hasSuffix (s suffix : Str) : Bool := suffix.isSuffixOf s

/-! ## `fullImageName` (suite.go, lines 127-149) -/

/-- Lines 128-134 of `fullImageName`: the pair `(domain, remainder)`.  Without a `/`,
or when the text before the first `/` has neither `.` nor `:`, the domain is
`defaultDomain` and the remainder is the whole image; otherwise the image is cut
at the first `/`. -/
def splitDomain (image : Str) : Str × Str :=
  match indexRune image '/' with
  | none => (defaultDomain, image)
  | some i =>
    if !containsAny (image.take i) ".:".toList then (defaultDomain, image)
    else (image.take i, image.drop (i + 1))

/-- Lines 135-137 of `fullImageName`: the remainder after the optional insertion of
`officialLib + "/"`. -/
def addLibrary (domain remainder : Str) : Str :=
  if domain = defaultDomain && !containsRune remainder '/' then
    officialLib ++ "/".toList ++ remainder
  else remainder

/-- The method `fullImageName`: domain resolution, library insertion, then the switch
on `len(strings.Split(remainder, ":"))`; the result `""` is `[]`. -/
def fullImageName (image : Str) : Str :=
  let (domain, remainder) := splitDomain image
  let remainder := addLibrary domain remainder
  match (split remainder ':').length with
  | 2 => domain ++ "/".toList ++ remainder
  | 1 => domain ++ "/".toList ++ (remainder ++ defaultTag)
  | _ => []

/-- The repository path of a raw reference as the specification words it: the text
after the first `/` when the prefix before that `/` contains `.` or `:`, and the
whole input otherwise.  Compared with the second component of `splitDomain` in
`splitDomain_snd`. -/
def repositoryPath (r : Str) : Str :=
  if r.contains '/' &&
      ((r.takeWhile (fun x => x != '/')).contains '.' ||
        (r.takeWhile (fun x => x != '/')).contains ':') then
    (r.dropWhile (fun x => x != '/')).drop 1
  else r

/-! ## The file system seen by `filepath.Walk` -/

/-- A Go `error` value other than `nil`: the sentinel `filepath.SkipDir`, or an error
reported by the operating system or by a reader, identified by a code. -/
inductive GoError
  | SkipDir
  | io (code : Nat)
  deriving DecidableEq, Repr

/-- The part of `os.FileInfo` the code reads: `Name()` and `IsDir()`. -/
structure FileInfo where
  name : Str
  isDir : Bool
  deriving DecidableEq, Repr

/-- What `os.Open(path)` followed by a `bufio.Scanner` delivers for a file: the error
of `os.Open` if it fails; the lines `scanner.Text()` yields while `scanner.Scan()`
is true (line terminators removed, so no line contains a newline); and the value of
`scanner.Err()` once `Scan` has returned false, which is an error when the file
could not be read to its end (a failed read, or a line longer than the scanner's
buffer). -/
structure FileData where
  openErr : Option Nat
  lines : List Str
  scanErr : Option Nat
  deriving DecidableEq, Repr

/-- A directory entry as `filepath.Walk` meets it: an entry whose `lstat` fails, a
file, or a directory with the outcome of reading its names and its entries in the
order `Walk` visits them. -/
inductive Node
  | noStat (name : Str) (code : Nat)
  | file (name : Str) (data : FileData)
  | dir (name : Str) (readErr : Option Nat) (children : List Node)

/-- The entry is a directory (`fileInfo.IsDir()` after a successful `lstat`). -/
def Node.isDir : Node → Bool
  | .dir _ _ _ => true
  | _ => false

/-- The `lstat` of the entry failed. -/
def Node.statFailed : Node → Bool
  | .noStat _ _ => true
  | _ => false

/-- Placeholder for `os.Open` on entries the callback never opens. -/
def noFile : FileData := ⟨none, [], none⟩

/-! ## `findTestImages` (suite.go, lines 72-125) -/

/-- The literal `image: ` of the pattern `.*image: (?P<image>.*)`. -/
def imageToken : Str := "image: ".toList

/-- The pattern `.*image: (?P<image>.*)` on one line without newline:
`imagePattern.MatchString(line)` is `(findSubmatch line).isSome`, and
`imagePattern.FindAllStringSubmatch(line, -1)[0][imageSubexpIndex]` is the value.
The leading `.*` is greedy, so the match uses the last `image: ` of the line and
the group captures everything after it. -/
def findSubmatch : Str → Option Str
  | [] => none
  | c :: cs =>
    match findSubmatch cs with
    | some image => some image
    | none =>
      if imageToken.isPrefixOf (c :: cs) then some ((c :: cs).drop imageToken.length)
      else none

/-- The method `shouldSkipWithError`; `IsExcluded` is the package function of that
name, taken as a parameter.  `info` is `none` for the nil `FileInfo` that `Walk`
passes together with an `lstat` error; `Walk` never passes a nil `info` without an
error, so the branch `none, none` is not reached. -/
def shouldSkipWithError (IsExcluded : Str → Bool) (info : Option FileInfo)
    (err : Option GoError) : Bool × Option GoError :=
  match err with
  | some e => (true, some e)
  | none =>
    match info with
    | none => (true, none)
    | some info =>
      if info.isDir then
        if IsExcluded info.name then (true, some GoError.SkipDir) else (true, none)
      else if !hasSuffix info.name ".yaml".toList then (true, none)
      else (false, none)

/-- The loop `for scanner.Scan() { ... }` of lines 88-93 over the lines the scanner
yields: every matching line appends `fullImageName` of its capture. -/
def scanLines : List Str → List Str → List Str
  | [], testImages => testImages
  | line :: rest, testImages =>
    match findSubmatch line with
    | some image => scanLines rest (testImages ++ [fullImageName image])
    | none => scanLines rest testImages

/-- The closure `walkFn` of lines 77-96.  `opened` is what `os.Open(path)` and the
scanner deliver for the entry, and `testImages` the captured slice, returned
updated.  `scanner.Err()` is not consulted: the closure returns `nil` after the
loop. -/
def walkFn (IsExcluded : Str → Bool) (opened : FileData) (info : Option FileInfo)
    (err : Option GoError) (testImages : List Str) : List Str × Option GoError :=
  match shouldSkipWithError IsExcluded info err with
  | (true, skipErr) => (testImages, skipErr)
  | (false, _) =>
    match opened.openErr with
    | some code => (testImages, some (GoError.io code))
    | none => (scanLines opened.lines testImages, none)

mutual
/-- Go `filepath.walk` with `walkFn` as callback, together with the `lstat` its
caller performs: a failed `lstat` is reported to the callback; a file is handed
to the callback; for a directory the names are read, the callback is called with
the outcome, and the entries are walked unless either reported an error. -/
def walk (IsExcluded : Str → Bool) : Node → List Str → List Str × Option GoError
  | .noStat _ code, acc => walkFn IsExcluded noFile none (some (GoError.io code)) acc
  | .file name data, acc => walkFn IsExcluded data (some ⟨name, false⟩) none acc
  | .dir name readErr children, acc =>
    match walkFn IsExcluded noFile (some ⟨name, true⟩) (readErr.map GoError.io) acc with
    | (acc1, err1) =>
      if readErr.isSome || err1.isSome then (acc1, err1)
      else walkNames IsExcluded children acc1
/-- The loop of `filepath.walk` over the entries of a directory: an error stops the
walk, except `SkipDir` coming from a directory or from the callback on a failed
`lstat`, after which the loop continues. -/
def walkNames (IsExcluded : Str → Bool) : List Node → List Str → List Str × Option GoError
  | [], acc => (acc, none)
  | n :: rest, acc =>
    match walk IsExcluded n acc with
    | (acc1, none) => walkNames IsExcluded rest acc1
    | (acc1, some e) =>
      if e = GoError.SkipDir && (n.statFailed || n.isDir) then walkNames IsExcluded rest acc1
      else (acc1, some e)
end

/-- Go `filepath.Walk(root, walkFn)`: `SkipDir` for the root itself is turned into
`nil`. -/
def Walk (IsExcluded : Str → Bool) (root : Node) (testImages : List Str) :
    List Str × Option GoError :=
  match walk IsExcluded root testImages with
  | (acc, some GoError.SkipDir) => (acc, none)
  | r => r

/-- The method `findTestImages`.  `apps` and `spire` are the entries found at
`s.Dir/apps` and `s.Dir/examples/spire`.  The Go result `(nil, err)` is
`Except.error err`, and `(testImages, nil)` is `Except.ok testImages`. -/
def findTestImages (IsExcluded : Str → Bool) (apps spire : Node) :
    Except GoError (List Str) :=
  match Walk IsExcluded apps [] with
  | (_, some e) => Except.error e
  | (testImages, none) =>
    match Walk IsExcluded spire testImages with
    | (_, some e) => Except.error e
    | (testImages, none) => Except.ok testImages

/-! ## Specification-side notions for the scan -/

/-- The entries every matched line of `lines` contributes, in order: the canonical
form of each capture. -/
def imagesOf (lines : List Str) : List Str :=
  (lines.filterMap findSubmatch).map fullImageName

mutual
/-- The lines of the files a walk scans, in walk order: the lines of every file named
`*.yaml` that is not beneath a directory with an excluded name. -/
def scannedLines (IsExcluded : Str → Bool) : Node → List Str
  | .noStat _ _ => []
  | .file name data => if hasSuffix name ".yaml".toList then data.lines else []
  | .dir name _ children =>
    if IsExcluded name then [] else scannedLinesList IsExcluded children
/-- The scanned lines of a list of entries. -/
def scannedLinesList (IsExcluded : Str → Bool) : List Node → List Str
  | [] => []
  | n :: rest => scannedLines IsExcluded n ++ scannedLinesList IsExcluded rest
end

mutual
/-- Two trees that agree everywhere except beneath directories with an excluded
name: there the entries are arbitrary on both sides. -/
def agreeOutside (IsExcluded : Str → Bool) : Node → Node → Prop
  | .noStat n c, t => t = .noStat n c
  | .file n d, t => t = .file n d
  | .dir n r cs, t =>
    ∃ cs2, t = .dir n r cs2 ∧ (IsExcluded n = true ∨ agreeOutsideList IsExcluded cs cs2)
/-- Entry lists of equal length that agree pairwise outside excluded directories. -/
def agreeOutsideList (IsExcluded : Str → Bool) : List Node → List Node → Prop
  | [], ts => ts = []
  | c :: cs, ts =>
    ∃ c2 cs2, ts = c2 :: cs2 ∧ agreeOutside IsExcluded c c2 ∧ agreeOutsideList IsExcluded cs cs2
end

mutual
/-- The first failure a walk meets, in walk order: a failed `lstat`, a directory whose
names cannot be read, or a failed `os.Open` of a file named `*.yaml`; nothing
beneath a directory with an excluded name counts, and `scanErr` is not looked at. -/
def firstFailure (IsExcluded : Str → Bool) : Node → Option Nat
  | .noStat _ code => some code
  | .file name data => if hasSuffix name ".yaml".toList then data.openErr else none
  | .dir _ (some code) _ => some code
  | .dir name none children =>
    if IsExcluded name then none else firstFailureList IsExcluded children
/-- The first failure met in a list of entries. -/
def firstFailureList (IsExcluded : Str → Bool) : List Node → Option Nat
  | [] => none
  | n :: rest =>
    match firstFailure IsExcluded n with
    | some code => some code
    | none => firstFailureList IsExcluded rest
end

/-! ## Example trees -/

/-- A file that opens and is read to its end, with the given lines. -/
def manifest (name : String) (lines : List String) : Node :=
  .file name.toList ⟨none, lines.map String.toList, none⟩

/-- An exclusion predicate that excludes the directory name `vendor`. -/
def excludeVendor : Str → Bool := fun name => name == "vendor".toList

/-- An empty tree at `examples/spire`. -/
def spireEmpty : Node := .dir "spire".toList none []

/-- Two manifests that both reference `alpine`. -/
def appsTwice : Node :=
  .dir "apps".toList none
    [manifest "a.yaml" ["kind: Pod", "    image: alpine"],
     manifest "b.yaml" ["    image: alpine"]]

/-- A manifest with a malformed reference followed by a well-formed one, and a
second manifest. -/
def appsMalformed : Node :=
  .dir "apps".toList none
    [manifest "a.yaml" ["  image: docker.io/foo/bar:v1:extra", "  image: alpine"],
     manifest "b.yaml" ["  image: busybox:1.36"]]

/-- A tree with an excluded directory `vendor` that holds a manifest. -/
def appsVendored : Node :=
  .dir "apps".toList none
    [.dir "vendor".toList none [manifest "x.yaml" ["  image: hidden/tool:v9"]],
     manifest "a.yaml" ["  image: alpine"]]

/-- The same tree with nothing beneath `vendor`. -/
def appsPruned : Node :=
  .dir "apps".toList none
    [.dir "vendor".toList none [],
     manifest "a.yaml" ["  image: alpine"]]

/-- A manifest whose scan stops with error 5 after its first line: the rest of the
file, with a second reference, is never delivered. -/
def appsTruncated : Node :=
  .dir "apps".toList none
    [.file "a.yaml".toList ⟨none, ["  image: alpine".toList], some 5⟩]

/-! ## `SetupSuite` (suite.go, lines 46-70) -/

/-- Go `strings.Join(elems, sep)`. -/
def join : List Str → Str → Str
  | [], _ => []
  | [a], _ => a
  | a :: b :: rest, sep => a ++ sep ++ join (b :: rest) sep

/-- Worker of `replaceAll`: `skip` counts the characters of a replaced occurrence
still to be passed over. -/
def replaceFrom (old new : Str) : Nat → Str → Str
  | _, [] => []
  | skip + 1, _ :: cs => replaceFrom old new skip cs
  | 0, c :: cs =>
    if old.isPrefixOf (c :: cs) then new ++ replaceFrom old new (old.length - 1) cs
    else c :: replaceFrom old new 0 cs

/-- Go `strings.ReplaceAll(s, old, new)` for a non-empty `old`: the occurrences of
`old`, taken from the left without overlap, are replaced by `new`. -/
def replaceAll (s old new : Str) : Str := replaceFrom old new 0 s

/-- The marker `{{.TestImages}}` that `SetupSuite` replaces in `createConfigMap`. -/
def testImagesMarker : Str := "\x7b\x7b.TestImages\x7d\x7d".toList

/-- The four command templates `createNamespace`, `createConfigMap`,
`createDaemonSet` and `createKustomization`: constants of the package that are
declared outside `suite.go`, taken as parameters. -/
structure Templates where
  createNamespace : Str
  createConfigMap : Str
  createDaemonSet : Str
  createKustomization : Str

/-- What one invocation of `SetupSuite` meets: the trees at `s.Dir/apps` and
`s.Dir/examples/spire`, the name `uuid.NewString()` returns, the error of
`os.MkdirAll`, whether the `n`-th call of `r.Run` (counted from 0) fails, and the
error of `os.RemoveAll`. -/
structure Call where
  apps : Node
  spire : Node
  tmpDir : Str
  mkdirErr : Option Nat
  runFails : Nat → Bool
  removeErr : Option Nat

/-- What an invocation does to its surroundings, in order. -/
inductive Event
  | scan
  | mkdirAll (dir : Str)
  | run (dir : Str) (cmd : Str)
  | removeAll (dir : Str)
  deriving DecidableEq, Repr

/-- How an invocation ends for its caller: it returns, or the test of the caller is
failed by `require` (`t.FailNow()`, which ends the goroutine with
`runtime.Goexit`, so that nothing after the failing statement is executed except
deferred calls). -/
inductive Outcome
  | returned
  | failed
  deriving DecidableEq, Repr

/-- The commands of lines 59-67 in order, for the scanned list `testImages`. -/
def commands (tpl : Templates) (testImages : List Str) : List Str :=
  [tpl.createNamespace,
   replaceAll tpl.createConfigMap testImagesMarker (join testImages " ".toList),
   tpl.createDaemonSet,
   tpl.createKustomization,
   "kubectl apply -k .".toList,
   "kubectl -n prefetch wait --timeout=10m --for=condition=ready pod -l app=prefetch".toList,
   "kubectl delete ns prefetch".toList]

/-- Modelled from the spec: `r.Run(cmd)` of the `gotestmd` runner, which is not part of
the sources, "runs a shell command synchronously and fails the enclosing test on
non-zero exit", and "no step begins before the prior step's command has exited
successfully".  This is a sequence of such calls with the runner of directory
`dir`, the first being call number `n`: each command is run, and a command that
fails ends the sequence.  The flag tells whether all commands succeeded. -/
def runAll (runFails : Nat → Bool) (dir : Str) : Nat → List Str → List Event × Bool
  | _, [] => ([], true)
  | n, cmd :: rest =>
    if runFails n then ([Event.run dir cmd], false)
    else
      match runAll runFails dir (n + 1) rest with
      | (events, ok) => (Event.run dir cmd :: events, ok)

/-- The function literal that `SetupSuite` passes to `once.Do` (lines 50-69): scan,
`require.NoError`, `os.MkdirAll`, `require.NoError`, the seven `r.Run`, and
`_ = os.RemoveAll(tmpDir)`, whose error is discarded. -/
def prefetchBody (IsExcluded : Str → Bool) (tpl : Templates) (c : Call) :
    List Event × Outcome :=
  match findTestImages IsExcluded c.apps c.spire with
  | Except.error _ => ([Event.scan], Outcome.failed)
  | Except.ok testImages =>
    match c.mkdirErr with
    | some _ => ([Event.scan, Event.mkdirAll c.tmpDir], Outcome.failed)
    | none =>
      match runAll c.runFails c.tmpDir 0 (commands tpl testImages) with
      | (events, false) => (Event.scan :: Event.mkdirAll c.tmpDir :: events, Outcome.failed)
      | (events, true) =>
        (Event.scan :: Event.mkdirAll c.tmpDir :: events ++ [Event.removeAll c.tmpDir],
          Outcome.returned)

/-- The method `SetupSuite` called while no other call is in progress, on the state
`done` of the package variable `once`.  Go `sync.Once.Do(f)` calls `f` only when
`done` is unset and sets `done` in a deferred call, so also when `f` ends by
failing the test.  The result is the new `done`, the events and the outcome. -/
def SetupSuite (IsExcluded : Str → Bool) (tpl : Templates) (done : Bool) (c : Call) :
    Bool × List Event × Outcome :=
  if done then (done, [], Outcome.returned)
  else (true, prefetchBody IsExcluded tpl c)

/-- A sequence of invocations of `SetupSuite` in one process, one after the other:
the final state of `once` and what each invocation did. -/
def setupSuites (IsExcluded : Str → Bool) (tpl : Templates) :
    Bool → List Call → Bool × List (List Event × Outcome)
  | done, [] => (done, [])
  | done, c :: rest =>
    match SetupSuite IsExcluded tpl done c with
    | (done1, result) =>
      match setupSuites IsExcluded tpl done1 rest with
      | (done2, results) => (done2, result :: results)

/-! ## Two concurrent calls of `once.Do` -/

/-- The two callers of `SetupSuite`. -/
inductive Caller
  | first
  | second
  deriving DecidableEq, Repr

/-- Where a caller stands in Go `sync.Once.Do(f)`, whose code is
`if atomic.LoadUint32(&o.done) == 0 { o.doSlow(f) }` with `doSlow` being
`o.m.Lock(); defer o.m.Unlock(); if o.done == 0 { defer atomic.StoreUint32(&o.done, 1); f() }`:
before the load of `done`; before `Lock`; holding the mutex before the test of
`done`; after `f` has ended with the given outcome, before the deferred store;
before the deferred `Unlock`; and out of `Do` with the given outcome. -/
inductive Pc
  | start
  | wantLock
  | locked
  | ranF (o : Outcome)
  | unlocking (o : Outcome)
  | finished (o : Outcome)
  deriving DecidableEq, Repr

/-- The caller holds the mutex. -/
def Pc.inCrit : Pc → Bool
  | .locked => true
  | .ranF _ => true
  | .unlocking _ => true
  | _ => false

/-- The caller is out of `Do`. -/
def Pc.isFinished : Pc → Bool
  | .finished _ => true
  | _ => false

/-- Progress of a caller through `Do`. -/
def Pc.rank : Pc → Nat
  | .start => 0
  | .wantLock => 1
  | .locked => 2
  | .ranF _ => 3
  | .unlocking _ => 4
  | .finished _ => 5

/-- The shared `once` (its flag `done` and whether its mutex is held), the callers
whose call executed `f`, in order, and the position of each caller. -/
structure OnceState where
  done : Bool
  held : Bool
  runs : List Caller
  pc : Caller → Pc

/-- Process start: `once` is unset and both callers are about to call `Do`. -/
def OnceState.init : OnceState := ⟨false, false, [], fun _ => Pc.start⟩

/-- One step of caller `t`, where `body t` is the outcome of `f` when `t` executes it.
A caller waiting for a held mutex does not move; `f` runs while the mutex is
held; a failing `f` ends the goroutine, which still runs the two deferred calls. -/
def onceStep (body : Caller → Outcome) (t : Caller) (s : OnceState) : OnceState :=
  match s.pc t with
  | .start =>
    if s.done then { s with pc := Function.update s.pc t (.finished .returned) }
    else { s with pc := Function.update s.pc t .wantLock }
  | .wantLock =>
    if s.held then s
    else { s with held := true, pc := Function.update s.pc t .locked }
  | .locked =>
    if s.done then { s with pc := Function.update s.pc t (.unlocking .returned) }
    else { s with runs := s.runs ++ [t], pc := Function.update s.pc t (.ranF (body t)) }
  | .ranF o => { s with done := true, pc := Function.update s.pc t (.unlocking o) }
  | .unlocking o => { s with held := false, pc := Function.update s.pc t (.finished o) }
  | .finished _ => s

/-- The state after the callers have taken steps in the order of the schedule. -/
def onceExec (body : Caller → Outcome) : List Caller → OnceState → OnceState
  | [], s => s
  | t :: rest, s => onceExec body rest (onceStep body t s)

/-- Two concurrent invocations of `SetupSuite`, interleaved by a schedule: the body
of a caller is `prefetchBody` on its invocation. -/
def concurrentSetupSuite (IsExcluded : Str → Bool) (tpl : Templates) (calls : Caller → Call)
    (schedule : List Caller) : OnceState :=
  onceExec (fun t => (prefetchBody IsExcluded tpl (calls t)).2) schedule OnceState.init

/-- The events of a state: those of `prefetchBody` for every run of the body. -/
def OnceState.events (IsExcluded : Str → Bool) (tpl : Templates) (calls : Caller → Call)
    (s : OnceState) : List Event :=
  s.runs.flatMap (fun t => (prefetchBody IsExcluded tpl (calls t)).1)

/-- Mutual exclusion: only a caller inside `doSlow` past `Lock` holds the mutex, at
most one caller does, and a held mutex has a holder. -/
structure MutexInv (held : Bool) (pc : Caller → Pc) : Prop where
  held_of_crit : ∀ t, (pc t).inCrit = true → held = true
  crit_unique : ∀ t u, (pc t).inCrit = true → (pc u).inCrit = true → t = u
  crit_of_held : held = true → ∃ t, (pc t).inCrit = true

/-- Bookkeeping of the runs of `f`: no run before a caller has executed `f`; a caller
between `f` and the store of `done` is the only run and carries the outcome of its
body; a set `done` comes with exactly one run; a caller that left the slow or the
fast path saw `done` set and carries the outcome of its body if it ran and
`returned` otherwise; a caller that has not reached `f` is not among the runs. -/
structure RunsInv (body : Caller → Outcome) (done : Bool) (runs : List Caller)
    (pc : Caller → Pc) : Prop where
  runs_nil : done = false → (∀ t o, pc t ≠ Pc.ranF o) → runs = []
  ranF_runs : ∀ t o, pc t = Pc.ranF o → runs = [t] ∧ o = body t ∧ done = false
  done_runs : done = true → ∃ t, runs = [t]
  exit_done : ∀ t o, (pc t = Pc.unlocking o ∨ pc t = Pc.finished o) →
    done = true ∧ o = (if t ∈ runs then body t else Outcome.returned)
  early : ∀ t, (pc t = Pc.start ∨ pc t = Pc.wantLock ∨ pc t = Pc.locked) → t ∉ runs

/-- The invariant of the interleaved executions. -/
structure OnceInv (body : Caller → Outcome) (s : OnceState) : Prop where
  mutex : MutexInv s.held s.pc
  runs : RunsInv body s.done s.runs s.pc

/-! ## The regular expression of `findTestImages` -/

/-- The constructs of Go `regexp` syntax that occur in `.*image: (?P<image>.*)`: a
literal character, `.*` (greedy, `.` being any character but newline), a
capturing group, and concatenation. -/
inductive Regex
  | lit (c : Char)
  | anyStar
  | group (r : Regex)
  | seq (r1 r2 : Regex)

/-- The literal text `text` followed by `r`. -/
def Regex.lits : Str → Regex → Regex
  | [], r => r
  | c :: cs, r => .seq (.lit c) (Regex.lits cs r)

/-- The expression `regexp.MustCompile(".*image: (?P<image>.*)")`. -/
def imagePattern : Regex :=
  .seq .anyStar (Regex.lits imageToken (.group .anyStar))

/-- Greedy `.*` before the continuation `k`: the longest run of characters other than
newline is tried first, and a shorter one only when the continuation fails. -/
def starAny {α : Type} (k : Str → Option α) : Str → Option α
  | [] => k []
  | c :: cs =>
    if c = '\n' then k (c :: cs)
    else
      match starAny k cs with
      | some r => some r
      | none => k (c :: cs)

/-- Backtracking match of `r` at the start of `s`, in the preference order of Go
`regexp` (leftmost-first): `cap` is the text of the group so far, and the
continuation `k` receives the rest of the input and the text of the group. -/
def Regex.run {α : Type} : Regex → Str → Option Str →
    (Str → Option Str → Option α) → Option α
  | .lit c, s, cap, k =>
    match s with
    | [] => none
    | x :: xs => if x = c then k xs cap else none
  | .anyStar, s, cap, k => starAny (fun rest => k rest cap) s
  | .group r, s, cap, k =>
    r.run s cap (fun rest _ => k rest (some (s.take (s.length - rest.length))))
  | .seq r1 r2, s, cap, k => r1.run s cap (fun rest cap1 => r2.run rest cap1 k)

/-- A match of `r` that starts at the beginning of `s`: the text of the group. -/
def Regex.matchAt (r : Regex) (s : Str) : Option (Option Str) :=
  r.run s none (fun _ cap => some cap)

/-- The first match of `r` in `s`: the leftmost start at which a match exists. -/
def Regex.find (r : Regex) : Str → Option (Option Str)
  | [] => r.matchAt []
  | c :: cs =>
    match r.matchAt (c :: cs) with
    | some cap => some cap
    | none => r.find cs

/-- The pair `r.MatchString(line)` and `r.FindAllStringSubmatch(line, -1)[0][i]` for
the group `i`: `none` when the line does not match, else the text of the group
in the first match (empty for a group that took no part). -/
def Regex.submatch (r : Regex) (line : Str) : Option Str :=
  (r.find line).map (fun cap => cap.getD [])

/-! ## Example invocations -/

/-- Templates with short texts. -/
def tplExample : Templates :=
  ⟨"create-namespace".toList, "images: \x7b\x7b.TestImages\x7d\x7d".toList,
    "create-daemonset".toList, "create-kustomization".toList⟩

/-- An invocation in which everything succeeds. -/
def callOk : Call := ⟨appsTwice, spireEmpty, "tmp-1".toList, none, fun _ => false, none⟩

/-- An invocation in which the readiness wait (call number 5 of `r.Run`) fails. -/
def callWaitFails : Call :=
  ⟨appsTwice, spireEmpty, "tmp-2".toList, none, fun n => n == 5, none⟩

/-- The invocation of each caller: the first meets a failing readiness wait, the
second would succeed. -/
def callsFirstFails : Caller → Call
  | .first => callWaitFails
  | .second => callOk

/-- A schedule in which both callers pass the load of `done` before either takes the
mutex, and the first caller wins the mutex. -/
def scheduleInterleaved : List Caller :=
  [.first, .second, .first, .second, .first, .first, .first, .second, .second, .second]

/-! ## Lemmas on the string functions and on `fullImageName` -/

theorem length_split (s : Str) (c : Char) : (split s c).length = s.count c + 1 := by
  induction s with
  | nil => rfl
  | cons x xs ih =>
    by_cases h : x = c
    · subst h
      simp [split, ih]
    · have hne : (x == c) = false := by simpa using h
      rw [List.count_cons, hne]
      simp only [split, if_neg h]
      cases hs : split xs c with
      | nil => rw [hs] at ih; simp at ih
      | cons seg rest => rw [hs] at ih; simpa using ih

theorem indexRune_eq_none {s : Str} {c : Char} : indexRune s c = none ↔ c ∉ s := by
  induction s with
  | nil => simp [indexRune]
  | cons x xs ih =>
    by_cases h : x = c
    · simp [indexRune, h]
    · simp [indexRune, h, ih, Ne.symm h]

theorem indexRune_append (d p : Str) (c : Char) (h : c ∉ d) :
    indexRune (d ++ c :: p) c = some d.length := by
  induction d with
  | nil => simp [indexRune]
  | cons x xs ih =>
    have hx : x ≠ c := fun e => h (by simp [e])
    have hxs : c ∉ xs := fun e => h (by simp [e])
    simp [indexRune, hx, ih hxs]

theorem indexRune_some {s : Str} {c : Char} {i : Nat} (h : indexRune s c = some i) :
    c ∉ s.take i ∧ s = s.take i ++ c :: s.drop (i + 1) := by
  induction s generalizing i with
  | nil => simp [indexRune] at h
  | cons x xs ih =>
    by_cases hx : x = c
    · simp [indexRune, hx] at h
      subst h; simp [hx]
    · simp only [indexRune, if_neg hx, Option.map_eq_some'] at h
      obtain ⟨j, hj, rfl⟩ := h
      have := ih hj
      refine ⟨?_, ?_⟩
      · simp [Ne.symm hx, this.1]
      · simpa using this.2

theorem containsRune_iff {s : Str} {c : Char} : containsRune s c = true ↔ c ∈ s := by
  unfold containsRune
  cases h : indexRune s c with
  | none => simpa using indexRune_eq_none.mp h
  | some i =>
    have := (indexRune_some h).2
    simp only [Option.isSome_some, true_iff]
    rw [this]; simp

theorem containsAny_iff {s : Str} : containsAny s ".:".toList = true ↔ '.' ∈ s ∨ ':' ∈ s := by
  unfold containsAny
  simp only [List.any_eq_true]
  constructor
  · rintro ⟨x, hx, h⟩
    have : x = '.' ∨ x = ':' := by simpa using h
    rcases this with rfl | rfl
    · exact Or.inl hx
    · exact Or.inr hx
  · rintro (h | h)
    · exact ⟨_, h, by decide⟩
    · exact ⟨_, h, by decide⟩


theorem takeWhile_ne_append (d p : Str) (c : Char) (h : c ∉ d) :
    (d ++ c :: p).takeWhile (fun x => x != c) = d := by
  induction d with
  | nil => simp
  | cons x xs ih =>
    have hx : x ≠ c := fun e => h (by simp [e])
    have hxs : c ∉ xs := fun e => h (by simp [e])
    simp [List.takeWhile_cons, hx, ih hxs]

theorem dropWhile_ne_append (d p : Str) (c : Char) (h : c ∉ d) :
    (d ++ c :: p).dropWhile (fun x => x != c) = c :: p := by
  induction d with
  | nil => simp
  | cons x xs ih =>
    have hx : x ≠ c := fun e => h (by simp [e])
    have hxs : c ∉ xs := fun e => h (by simp [e])
    simp [List.dropWhile_cons, hx, ih hxs]

theorem defaultDomain_facts :
    '/' ∉ defaultDomain ∧ containsAny defaultDomain ".:".toList = true ∧ defaultDomain ≠ [] := by
  decide

theorem splitDomain_append (d p : Str) (h1 : '/' ∉ d)
    (h2 : containsAny d ".:".toList = true) : splitDomain (d ++ '/' :: p) = (d, p) := by
  unfold splitDomain
  have ht : (d ++ '/' :: p).take d.length = d := by simp
  have hdr : (d ++ '/' :: p).drop (d.length + 1) = p := by simp
  rw [indexRune_append d p '/' h1]
  simp only [ht, hdr, h2, Bool.not_true, Bool.false_eq_true, if_false]

theorem splitDomain_cases (image : Str) :
    (splitDomain image = (defaultDomain, image) ∧
      ('/' ∉ image ∨
        containsAny (image.takeWhile (fun x => x != '/')) ".:".toList = false)) ∨
    (∃ d p, image = d ++ '/' :: p ∧ '/' ∉ d ∧ containsAny d ".:".toList = true ∧
      splitDomain image = (d, p)) := by
  unfold splitDomain
  cases h : indexRune image '/' with
  | none => exact Or.inl ⟨rfl, Or.inl (indexRune_eq_none.mp h)⟩
  | some i =>
    obtain ⟨hn, he⟩ := indexRune_some h
    cases hc : containsAny (image.take i) ".:".toList with
    | false =>
      refine Or.inl ⟨by simp only [hc, Bool.not_false, if_true], Or.inr ?_⟩
      rw [he, takeWhile_ne_append _ _ _ hn]
      exact hc
    | true =>
      exact Or.inr ⟨image.take i, image.drop (i + 1), he, hn, hc,
        by simp only [hc, Bool.not_true, Bool.false_eq_true, if_false]⟩

theorem splitDomain_fst (image : Str) :
    '/' ∉ (splitDomain image).1 ∧ containsAny (splitDomain image).1 ".:".toList = true := by
  rcases splitDomain_cases image with ⟨h, _⟩ | ⟨d, p, _, h1, h2, h⟩
  · rw [h]; exact ⟨defaultDomain_facts.1, defaultDomain_facts.2.1⟩
  · rw [h]; exact ⟨h1, h2⟩

theorem count_colon_addLibrary (d r : Str) : (addLibrary d r).count ':' = r.count ':' := by
  unfold addLibrary
  split
  · rw [List.count_append]
    have : (officialLib ++ "/".toList).count ':' = 0 := by decide
    omega
  · rfl

theorem addLibrary_slash (d r : Str) (h : d = defaultDomain) : '/' ∈ addLibrary d r := by
  unfold addLibrary
  by_cases hr : '/' ∈ r
  · have : containsRune r '/' = true := containsRune_iff.mpr hr
    simp [this, hr]
  · have : containsRune r '/' = false := by
      cases hc : containsRune r '/' with
      | false => rfl
      | true => exact absurd (containsRune_iff.mp hc) hr
    simp [this, h]

theorem addLibrary_of_slash (d r : Str) (h : d = defaultDomain → '/' ∈ r) :
    addLibrary d r = r := by
  unfold addLibrary
  by_cases hd : d = defaultDomain
  · have : containsRune r '/' = true := containsRune_iff.mpr (h hd)
    simp [this]
  · simp [hd]

/-- The three-way switch of `fullImageName` in terms of the number of colons. -/
theorem fullImageName_eq (image : Str) :
    fullImageName image =
      if (addLibrary (splitDomain image).1 (splitDomain image).2).count ':' = 1 then
        (splitDomain image).1 ++ '/' :: addLibrary (splitDomain image).1 (splitDomain image).2
      else if (addLibrary (splitDomain image).1 (splitDomain image).2).count ':' = 0 then
        (splitDomain image).1 ++
          '/' :: (addLibrary (splitDomain image).1 (splitDomain image).2 ++ defaultTag)
      else [] := by
  unfold fullImageName
  obtain ⟨d, r⟩ := splitDomain image
  simp only [length_split]
  generalize (addLibrary d r).count ':' = n
  match n with
  | 0 => simp
  | 1 => simp
  | n + 2 => simp

theorem fullImageName_of_parts (d p : Str) (hd : '/' ∉ d)
    (hdot : containsAny d ".:".toList = true) (hlib : d = defaultDomain → '/' ∈ p)
    (hc : p.count ':' = 1) : fullImageName (d ++ '/' :: p) = d ++ '/' :: p := by
  rw [fullImageName_eq, splitDomain_append d p hd hdot]
  simp only [addLibrary_of_slash d p hlib, hc, if_true]

theorem count_colon_defaultTag (r : Str) : (r ++ defaultTag).count ':' = r.count ':' + 1 := by
  rw [List.count_append]
  have : defaultTag.count ':' = 1 := by decide
  omega

/-- Shape of every non-empty result. -/
theorem fullImageName_form (image : Str) (h : fullImageName image ≠ []) :
    ∃ p, fullImageName image = (splitDomain image).1 ++ '/' :: p ∧
      ((splitDomain image).1 = defaultDomain → '/' ∈ p) ∧ p.count ':' = 1 ∧
      (p = addLibrary (splitDomain image).1 (splitDomain image).2 ∨
        p = addLibrary (splitDomain image).1 (splitDomain image).2 ++ defaultTag) := by
  rw [fullImageName_eq] at h ⊢
  split_ifs at h ⊢ with h1 h0
  · exact ⟨_, rfl, fun e => addLibrary_slash _ _ e, h1, Or.inl rfl⟩
  · refine ⟨_, rfl, fun e => ?_, ?_, Or.inr rfl⟩
    · exact List.mem_append_left _ (addLibrary_slash _ _ e)
    · rw [count_colon_defaultTag, h0]
  · exact absurd rfl h

theorem slash_toList : "/".toList = ['/'] := rfl

theorem contains_iff_mem (s : Str) (c : Char) : s.contains c = true ↔ c ∈ s := by
  simp

/-- The second component of `splitDomain` is the repository path as the specification
words it. -/
theorem splitDomain_snd (r : Str) : (splitDomain r).2 = repositoryPath r := by
  unfold repositoryPath
  rcases splitDomain_cases r with ⟨h, hno | hno⟩ | ⟨d, p, he, h1, h2, h⟩
  · rw [h]
    have : r.contains '/' = false := by
      cases hc : r.contains '/' with
      | false => rfl
      | true => exact absurd ((contains_iff_mem r '/').mp hc) hno
    simp only [this, Bool.false_and, Bool.false_eq_true, if_false]
  · rw [h]
    have hn : ¬ ('.' ∈ r.takeWhile (fun x => x != '/') ∨ ':' ∈ r.takeWhile (fun x => x != '/')) := by
      intro hh
      have := containsAny_iff.mpr hh
      rw [hno] at this
      exact Bool.false_ne_true this
    have h3 : ((r.takeWhile (fun x => x != '/')).contains '.' ||
        (r.takeWhile (fun x => x != '/')).contains ':') = false := by
      cases hc : ((r.takeWhile (fun x => x != '/')).contains '.' ||
        (r.takeWhile (fun x => x != '/')).contains ':') with
      | false => rfl
      | true =>
        rw [Bool.or_eq_true, contains_iff_mem, contains_iff_mem] at hc
        exact absurd hc hn
    simp only [h3, Bool.and_false, Bool.false_eq_true, if_false]
  · rw [h]
    have hm : '/' ∈ r := by rw [he]; simp
    have hc1 : r.contains '/' = true := (contains_iff_mem r '/').mpr hm
    have htw : r.takeWhile (fun x => x != '/') = d := by
      rw [he]; exact takeWhile_ne_append d p '/' h1
    have hdw : r.dropWhile (fun x => x != '/') = '/' :: p := by
      rw [he]; exact dropWhile_ne_append d p '/' h1
    have h3 : (d.contains '.' || d.contains ':') = true := by
      rw [Bool.or_eq_true, contains_iff_mem, contains_iff_mem]
      exact containsAny_iff.mp h2
    simp only [hc1, htw, hdw, h3, Bool.and_self, if_true, List.drop_succ_cons, List.drop_zero]

theorem fullImageName_eq_nil_iff (r : Str) :
    fullImageName r = [] ↔ 2 ≤ (repositoryPath r).count ':' := by
  rw [fullImageName_eq, count_colon_addLibrary, splitDomain_snd]
  split_ifs with h1 h0
  · simp [h1]
  · simp [h0]
  · constructor
    · intro _; omega
    · intro _; rfl

theorem head_addLibrary (d r : Str) :
    (addLibrary d r).head? = some '/' ↔ r.head? = some '/' := by
  unfold addLibrary
  by_cases hd : d = defaultDomain
  · by_cases hr : '/' ∈ r
    · have : containsRune r '/' = true := containsRune_iff.mpr hr
      simp [this]
    · have : containsRune r '/' = false := by
        cases hc : containsRune r '/' with
        | false => rfl
        | true => exact absurd (containsRune_iff.mp hc) hr
      have h1 : r.head? ≠ some '/' := by
        intro h
        cases r with
        | nil => simp at h
        | cons x xs => simp at h; exact hr (by simp [h])
      have h2 : (officialLib ++ "/".toList ++ r).head? = some 'l' := by
        simp [officialLib]
      simp only [hd, this, decide_True, Bool.not_false, Bool.and_self, if_true, h2]
      constructor
      · intro h; simp at h
      · intro h; exact absurd h h1
  · simp [hd]

theorem head_append_defaultTag (r : Str) :
    (r ++ defaultTag).head? = some '/' ↔ r.head? = some '/' := by
  cases r with
  | nil => simp [defaultTag]
  | cons x xs => simp

/-- Two decompositions at a `/` whose left parts contain no `/` coincide. -/
theorem append_slash_inj {d1 d2 p1 p2 : Str} (h1 : '/' ∉ d1) (h2 : '/' ∉ d2)
    (h : d1 ++ '/' :: p1 = d2 ++ '/' :: p2) : d1 = d2 ∧ p1 = p2 := by
  have ht := congrArg (List.takeWhile (fun x => x != '/')) h
  rw [takeWhile_ne_append d1 p1 '/' h1, takeWhile_ne_append d2 p2 '/' h2] at ht
  subst ht
  exact ⟨rfl, by simpa using h⟩

/-! ## Claims on `fullImageName` -/

/-- C1: `fullImageName` is idempotent on well-formed references: when the canonical
form of a raw reference `r` is not the drop signal, canonicalising it again gives
the same string. -/
theorem fullImageName_idempotent (r : Str) (h : fullImageName r ≠ []) :
    fullImageName (fullImageName r) = fullImageName r := by
  obtain ⟨p, hp, hlib, hc, _⟩ := fullImageName_form r h
  rw [hp]
  exact fullImageName_of_parts _ p (splitDomain_fst r).1 (splitDomain_fst r).2 hlib hc

/-- Witness of C1 at `alpine:3.18`. -/
theorem fullImageName_idempotent_witness :
    fullImageName "alpine:3.18".toList ≠ [] ∧
      fullImageName (fullImageName "alpine:3.18".toList) =
        fullImageName "alpine:3.18".toList :=
  ⟨by decide, fullImageName_idempotent "alpine:3.18".toList (by decide)⟩

/-- C2: a name that contains neither `/` nor `:` canonicalises to
`docker.io/library/` followed by the name and `:latest`. -/
theorem fullImageName_bare (s : Str) (h1 : '/' ∉ s) (h2 : ':' ∉ s) :
    fullImageName s = "docker.io/library/".toList ++ s ++ ":latest".toList := by
  have hs : splitDomain s = (defaultDomain, s) := by
    unfold splitDomain
    rw [indexRune_eq_none.mpr h1]
  have hr : containsRune s '/' = false := by
    cases hc : containsRune s '/' with
    | false => rfl
    | true => exact absurd (containsRune_iff.mp hc) h1
  have ha : addLibrary defaultDomain s = officialLib ++ "/".toList ++ s := by
    unfold addLibrary
    simp [hr]
  have hcount : (officialLib ++ "/".toList ++ s).count ':' = 0 := by
    rw [List.count_append, List.count_eq_zero_of_not_mem h2]
    decide
  rw [fullImageName_eq, hs]
  simp only [ha, hcount]
  simp [defaultDomain, officialLib, defaultTag]

/-- Witness of C2: `alpine` canonicalises to `docker.io/library/alpine:latest`. -/
theorem fullImageName_bare_witness :
    '/' ∉ "alpine".toList ∧ ':' ∉ "alpine".toList ∧
      fullImageName "alpine".toList = "docker.io/library/alpine:latest".toList :=
  ⟨by decide, by decide, fullImageName_bare "alpine".toList (by decide) (by decide)⟩

/-- C3: a reference `d/p` whose domain `d` has no `/`, contains `.` or `:` and is not
`docker.io` keeps its domain and gets no `library/` segment: it is returned
unchanged when `p` has exactly one `:`, and with `:latest` appended when `p` has
none. -/
theorem fullImageName_explicit_domain (d p : Str) (hd : '/' ∉ d)
    (hdot : '.' ∈ d ∨ ':' ∈ d) (hne : d ≠ "docker.io".toList) :
    (p.count ':' = 1 → fullImageName (d ++ "/".toList ++ p) = d ++ "/".toList ++ p) ∧
      (p.count ':' = 0 →
        fullImageName (d ++ "/".toList ++ p) = d ++ "/".toList ++ p ++ ":latest".toList) := by
  have hs : splitDomain (d ++ '/' :: p) = (d, p) :=
    splitDomain_append d p hd (containsAny_iff.mpr hdot)
  have ha : addLibrary d p = p := addLibrary_of_slash d p (fun e => absurd e hne)
  simp only [slash_toList, List.append_assoc, List.singleton_append]
  constructor
  · intro hc
    rw [fullImageName_eq, hs]
    simp only [ha, hc, if_true]
  · intro hc
    rw [fullImageName_eq, hs]
    simp [ha, hc, defaultTag]

/-- Witness of C3: `myregistry.io/team/app:v2` is unchanged and `myregistry.io/app`
becomes `myregistry.io/app:latest`. -/
theorem fullImageName_explicit_domain_witness :
    fullImageName "myregistry.io/team/app:v2".toList = "myregistry.io/team/app:v2".toList ∧
      fullImageName "myregistry.io/app".toList = "myregistry.io/app:latest".toList :=
  ⟨(fullImageName_explicit_domain "myregistry.io".toList "team/app:v2".toList (by decide)
      (Or.inl (by decide)) (by decide)).1 (by decide),
    (fullImageName_explicit_domain "myregistry.io".toList "app".toList (by decide)
      (Or.inl (by decide)) (by decide)).2 (by decide)⟩

/-- C4: `fullImageName` returns the drop signal exactly when the repository path
splits on `:` into more than two segments, that is, contains two or more `:`;
colons of an explicit domain are not part of the repository path.  The function
is total and its two slices `image[:i]` and `image[i+1:]` are always in range, the
reference `docker.io/foo/bar:v1:extra` is dropped, and `localhost:5000/app:v1`
with its port colon is kept. -/
theorem fullImageName_drop_iff :
    (∀ r : Str,
      (fullImageName r = [] ↔ 2 < (split (repositoryPath r) ':').length) ∧
      (2 < (split (repositoryPath r) ':').length ↔ 2 ≤ (repositoryPath r).count ':') ∧
      (∀ i, indexRune r '/' = some i → i + 1 ≤ r.length)) ∧
    fullImageName "docker.io/foo/bar:v1:extra".toList = [] ∧
    fullImageName "localhost:5000/app:v1".toList = "localhost:5000/app:v1".toList := by
  refine ⟨fun r => ⟨?_, ?_, ?_⟩, by decide, by decide⟩
  · rw [fullImageName_eq_nil_iff, length_split]; omega
  · rw [length_split]; omega
  · intro i hi
    have h := congrArg List.length (indexRune_some hi).2
    simp only [List.length_append, List.length_cons, List.length_take] at h
    omega

/-- C5 fails as stated: `myregistry.io//app` has the non-empty canonical form
`myregistry.io//app:latest`, whose repository path `/app:latest` (the text after
the domain `myregistry.io` and its `/`) begins with `/`. -/
theorem fullImageName_leading_slash_counterexample :
    fullImageName "myregistry.io//app".toList =
        "myregistry.io".toList ++ "/".toList ++ "/app:latest".toList ∧
      fullImageName "myregistry.io//app".toList ≠ [] ∧
      '/' ∉ "myregistry.io".toList ∧
      "/app:latest".toList.head? = some '/' := by
  decide

/-- C5, amended: in a non-empty result `d/p` (`d` without `/`), the repository path
`p` begins with `/` exactly when the repository path of the raw input does; so
a raw reference whose repository path has no leading `/` gets none. -/
theorem fullImageName_leading_slash_iff (r d p : Str) (h : fullImageName r ≠ [])
    (hd : '/' ∉ d) (hp : fullImageName r = d ++ "/".toList ++ p) :
    p.head? = some '/' ↔ (repositoryPath r).head? = some '/' := by
  obtain ⟨q, hq, _, _, hcases⟩ := fullImageName_form r h
  simp only [slash_toList, List.append_assoc, List.singleton_append] at hp
  rw [hq] at hp
  obtain ⟨_, rfl⟩ := append_slash_inj (splitDomain_fst r).1 hd hp
  rw [← splitDomain_snd]
  rcases hcases with rfl | rfl
  · exact head_addLibrary _ _
  · rw [head_append_defaultTag]; exact head_addLibrary _ _

/-- Witness of amended C5 at `myregistry.io/team/app`. -/
theorem fullImageName_leading_slash_iff_witness :
    ("team/app:latest".toList.head? = some '/' ↔
      (repositoryPath "myregistry.io/team/app".toList).head? = some '/') :=
  fullImageName_leading_slash_iff "myregistry.io/team/app".toList "myregistry.io".toList
    "team/app:latest".toList (by decide) (by decide) (by decide)

/-- C6: every non-empty result of `fullImageName` is `d/p` with a non-empty domain `d`
that contains no `/` and a repository path `p` with at most one `:`. -/
theorem fullImageName_shape (r : Str) (h : fullImageName r ≠ []) :
    ∃ d p, fullImageName r = d ++ "/".toList ++ p ∧ d ≠ [] ∧ '/' ∉ d ∧ p.count ':' ≤ 1 := by
  obtain ⟨p, hp, _, hc, _⟩ := fullImageName_form r h
  refine ⟨(splitDomain r).1, p, ?_, ?_, (splitDomain_fst r).1, by omega⟩
  · simpa using hp
  · intro he
    have := (splitDomain_fst r).2
    rw [he] at this
    exact Bool.false_ne_true this

/-- Witness of C6 at `localhost:5000/app`. -/
theorem fullImageName_shape_witness :
    ∃ d p, fullImageName "localhost:5000/app".toList = d ++ "/".toList ++ p ∧ d ≠ [] ∧
      '/' ∉ d ∧ p.count ':' ≤ 1 :=
  fullImageName_shape "localhost:5000/app".toList (by decide)


/-! ## Lemmas on the scan -/

theorem imagesOf_append (a b : List Str) : imagesOf (a ++ b) = imagesOf a ++ imagesOf b := by
  simp [imagesOf, List.filterMap_append]

theorem scanLines_eq (lines testImages : List Str) :
    scanLines lines testImages = testImages ++ imagesOf lines := by
  induction lines generalizing testImages with
  | nil => simp [scanLines, imagesOf]
  | cons line rest ih =>
    cases h : findSubmatch line with
    | none => simp [scanLines, h, ih, imagesOf, List.filterMap_cons]
    | some image => simp [scanLines, h, ih, imagesOf, List.filterMap_cons]

theorem walk_noStat (IsExcluded : Str → Bool) (name : Str) (code : Nat) (acc : List Str) :
    walk IsExcluded (.noStat name code) acc = (acc, some (GoError.io code)) := by
  simp [walk, walkFn, shouldSkipWithError]

theorem walk_file (IsExcluded : Str → Bool) (name : Str) (data : FileData) (acc : List Str) :
    walk IsExcluded (.file name data) acc =
      if hasSuffix name ".yaml".toList then
        match data.openErr with
        | some code => (acc, some (GoError.io code))
        | none => (acc ++ imagesOf data.lines, none)
      else (acc, none) := by
  simp only [walk, walkFn, shouldSkipWithError]
  generalize hasSuffix name ".yaml".toList = b
  cases b <;> simp [scanLines_eq]

theorem walk_dir (IsExcluded : Str → Bool) (name : Str) (readErr : Option Nat)
    (children : List Node) (acc : List Str) :
    walk IsExcluded (.dir name readErr children) acc =
      match readErr with
      | some code => (acc, some (GoError.io code))
      | none =>
        if IsExcluded name then (acc, some GoError.SkipDir)
        else walkNames IsExcluded children acc := by
  cases readErr with
  | some code => simp [walk, walkFn, shouldSkipWithError]
  | none =>
    cases he : IsExcluded name <;> simp [walk, walkFn, shouldSkipWithError, he]


theorem walk_not_dir_skip (IsExcluded : Str → Bool) (t : Node) (acc acc1 : List Str)
    (h : walk IsExcluded t acc = (acc1, some GoError.SkipDir)) : t.isDir = true := by
  cases t with
  | noStat name code => rw [walk_noStat] at h; simp at h
  | file name data =>
    rw [walk_file] at h
    split at h
    · split at h <;> simp at h
    · simp at h
  | dir name readErr children => rfl

mutual
/-- A walk that ends without error, or with `SkipDir`, has appended exactly the
entries of the scanned lines of the tree. -/
theorem walk_scanned (IsExcluded : Str → Bool) :
    ∀ (t : Node) (acc acc1 : List Str) (e : Option GoError),
      walk IsExcluded t acc = (acc1, e) → (e = none ∨ e = some GoError.SkipDir) →
      acc1 = acc ++ imagesOf (scannedLines IsExcluded t)
  | .noStat name code, acc, acc1, e, h, he => by
    rw [walk_noStat] at h
    rcases he with rfl | rfl <;> simp at h
  | .file name data, acc, acc1, e, h, he => by
    rw [walk_file] at h
    simp only [scannedLines]
    by_cases hs : hasSuffix name ".yaml".toList = true
    · rw [if_pos hs] at h ⊢
      cases ho : data.openErr with
      | some code =>
        rw [ho] at h
        rcases he with rfl | rfl <;> simp at h
      | none =>
        rw [ho] at h
        simp only [Prod.mk.injEq] at h
        exact h.1.symm
    · rw [if_neg hs] at h ⊢
      simp only [Prod.mk.injEq] at h
      rw [← h.1]
      simp [imagesOf]
  | .dir name readErr children, acc, acc1, e, h, he => by
    rw [walk_dir] at h
    simp only [scannedLines]
    cases readErr with
    | some code => rcases he with rfl | rfl <;> simp at h
    | none =>
      cases hx : IsExcluded name with
      | true =>
        simp [hx] at h
        simp [imagesOf, h.1.symm]
      | false =>
        simp [hx] at h
        have := walkNames_scanned IsExcluded children acc acc1 e h
        rcases he with rfl | rfl
        · simpa using this.2 rfl
        · exact absurd rfl this.1
/-- The loop over the entries never ends with `SkipDir`, and when it ends without
error it has appended exactly the entries of the scanned lines. -/
theorem walkNames_scanned (IsExcluded : Str → Bool) :
    ∀ (ts : List Node) (acc acc1 : List Str) (e : Option GoError),
      walkNames IsExcluded ts acc = (acc1, e) →
      e ≠ some GoError.SkipDir ∧
        (e = none → acc1 = acc ++ imagesOf (scannedLinesList IsExcluded ts))
  | [], acc, acc1, e, h => by
    simp [walkNames] at h
    obtain ⟨rfl, rfl⟩ := h
    simp [scannedLinesList, imagesOf]
  | t :: rest, acc, acc1, e, h => by
    simp only [walkNames] at h
    cases hw : walk IsExcluded t acc with
    | mk acc2 e2 =>
      rw [hw] at h
      have ht := walk_scanned IsExcluded t acc acc2 e2 hw
      cases e2 with
      | none =>
        simp only at h
        have hr := walkNames_scanned IsExcluded rest acc2 acc1 e h
        refine ⟨hr.1, fun he => ?_⟩
        rw [hr.2 he, ht (Or.inl rfl)]
        simp [scannedLinesList, imagesOf_append]
      | some err =>
        simp only at h
        by_cases hskip : err = GoError.SkipDir
        · subst hskip
          have hd : t.isDir = true := walk_not_dir_skip IsExcluded t acc acc2 hw
          simp [hd] at h
          have hr := walkNames_scanned IsExcluded rest acc2 acc1 e h
          refine ⟨hr.1, fun he => ?_⟩
          rw [hr.2 he, ht (Or.inr rfl)]
          simp [scannedLinesList, imagesOf_append]
        · simp [hskip] at h
          obtain ⟨_, rfl⟩ := h
          refine ⟨by simpa using hskip, fun he => by simp at he⟩
end


theorem Walk_scanned (IsExcluded : Str → Bool) (root : Node) (acc acc1 : List Str)
    (h : Walk IsExcluded root acc = (acc1, none)) :
    acc1 = acc ++ imagesOf (scannedLines IsExcluded root) := by
  unfold Walk at h
  cases hw : walk IsExcluded root acc with
  | mk acc2 e2 =>
    rw [hw] at h
    cases e2 with
    | none =>
      simp only [Prod.mk.injEq] at h
      rw [← h.1]
      exact walk_scanned IsExcluded root acc acc2 none hw (Or.inl rfl)
    | some err =>
      cases err with
      | SkipDir =>
        simp only [Prod.mk.injEq] at h
        rw [← h.1]
        exact walk_scanned IsExcluded root acc acc2 _ hw (Or.inr rfl)
      | io code => simp at h

theorem findTestImages_ok (IsExcluded : Str → Bool) (apps spire : Node) (images : List Str)
    (h : findTestImages IsExcluded apps spire = Except.ok images) :
    images = imagesOf (scannedLines IsExcluded apps ++ scannedLines IsExcluded spire) := by
  unfold findTestImages at h
  cases h1 : Walk IsExcluded apps [] with
  | mk acc1 e1 =>
    rw [h1] at h
    cases e1 with
    | some err => simp at h
    | none =>
      simp only at h
      cases h2 : Walk IsExcluded spire acc1 with
      | mk acc2 e2 =>
        rw [h2] at h
        cases e2 with
        | some err => simp at h
        | none =>
          simp only [Except.ok.injEq] at h
          rw [← h, Walk_scanned IsExcluded spire acc1 acc2 h2,
            Walk_scanned IsExcluded apps [] acc1 h1, imagesOf_append]
          simp

theorem agreeOutside_kind (IsExcluded : Str → Bool) (t t2 : Node)
    (h : agreeOutside IsExcluded t t2) :
    t2.isDir = t.isDir ∧ t2.statFailed = t.statFailed := by
  cases t with
  | noStat name code => simp only [agreeOutside] at h; subst h; exact ⟨rfl, rfl⟩
  | file name data => simp only [agreeOutside] at h; subst h; exact ⟨rfl, rfl⟩
  | dir name readErr children =>
    simp only [agreeOutside] at h
    obtain ⟨cs2, rfl, _⟩ := h
    exact ⟨rfl, rfl⟩

mutual
/-- The walk does not distinguish trees that agree outside excluded directories. -/
theorem walk_agree (IsExcluded : Str → Bool) :
    ∀ (t t2 : Node) (acc : List Str), agreeOutside IsExcluded t t2 →
      walk IsExcluded t acc = walk IsExcluded t2 acc
  | .noStat name code, t2, acc, h => by
    simp only [agreeOutside] at h
    rw [h]
  | .file name data, t2, acc, h => by
    simp only [agreeOutside] at h
    rw [h]
  | .dir name readErr children, t2, acc, h => by
    simp only [agreeOutside] at h
    obtain ⟨cs2, rfl, hc⟩ := h
    rw [walk_dir, walk_dir]
    cases readErr with
    | some code => rfl
    | none =>
      rcases hc with hx | hc
      · simp [hx]
      · simp only [walkNames_agree IsExcluded children cs2 acc hc]
/-- The loop over the entries does not distinguish lists that agree outside
excluded directories. -/
theorem walkNames_agree (IsExcluded : Str → Bool) :
    ∀ (ts ts2 : List Node) (acc : List Str), agreeOutsideList IsExcluded ts ts2 →
      walkNames IsExcluded ts acc = walkNames IsExcluded ts2 acc
  | [], ts2, acc, h => by
    simp only [agreeOutsideList] at h
    rw [h]
  | t :: rest, ts2, acc, h => by
    simp only [agreeOutsideList] at h
    obtain ⟨c2, cs2, rfl, h1, h2⟩ := h
    have hk := agreeOutside_kind IsExcluded t c2 h1
    simp only [walkNames, ← walk_agree IsExcluded t c2 acc h1, hk.1, hk.2]
    cases walk IsExcluded t acc with
    | mk acc1 e1 =>
      cases e1 with
      | none => exact walkNames_agree IsExcluded rest cs2 acc1 h2
      | some err =>
        simp only
        rw [walkNames_agree IsExcluded rest cs2 acc1 h2]
end

theorem findTestImages_agree (IsExcluded : Str → Bool) (apps apps2 spire spire2 : Node)
    (h1 : agreeOutside IsExcluded apps apps2) (h2 : agreeOutside IsExcluded spire spire2) :
    findTestImages IsExcluded apps spire = findTestImages IsExcluded apps2 spire2 := by
  unfold findTestImages Walk
  simp only [walk_agree IsExcluded apps apps2 _ h1, walk_agree IsExcluded spire spire2 _ h2]


mutual
/-- The error a walk returns is the first failure of the tree; without failure the
walk returns `nil` or `SkipDir`. -/
theorem walk_failure (IsExcluded : Str → Bool) :
    ∀ (t : Node) (acc : List Str),
      (∀ code, firstFailure IsExcluded t = some code →
        (walk IsExcluded t acc).2 = some (GoError.io code)) ∧
      (firstFailure IsExcluded t = none →
        (walk IsExcluded t acc).2 = none ∨ (walk IsExcluded t acc).2 = some GoError.SkipDir)
  | .noStat name code, acc => by
    rw [walk_noStat]
    simp [firstFailure]
  | .file name data, acc => by
    rw [walk_file]
    simp only [firstFailure]
    by_cases hs : hasSuffix name ".yaml".toList = true
    · rw [if_pos hs, if_pos hs]
      cases data.openErr <;> simp
    · rw [if_neg hs, if_neg hs]
      simp
  | .dir name (some code) children, acc => by
    rw [walk_dir]
    simp [firstFailure]
  | .dir name none children, acc => by
    rw [walk_dir]
    simp only [firstFailure]
    cases hx : IsExcluded name with
    | true => simp
    | false =>
      have := walkNames_failure IsExcluded children acc
      simp only [Bool.false_eq_true, if_false]
      exact ⟨this.1, fun h => Or.inl (this.2 h)⟩
/-- The error the loop over the entries returns is the first failure of the list. -/
theorem walkNames_failure (IsExcluded : Str → Bool) :
    ∀ (ts : List Node) (acc : List Str),
      (∀ code, firstFailureList IsExcluded ts = some code →
        (walkNames IsExcluded ts acc).2 = some (GoError.io code)) ∧
      (firstFailureList IsExcluded ts = none → (walkNames IsExcluded ts acc).2 = none)
  | [], acc => by simp [firstFailureList, walkNames]
  | t :: rest, acc => by
    have ht := walk_failure IsExcluded t acc
    simp only [firstFailureList, walkNames]
    cases hw : walk IsExcluded t acc with
    | mk acc1 e1 =>
      rw [hw] at ht
      have hr := walkNames_failure IsExcluded rest acc1
      cases hf : firstFailure IsExcluded t with
      | some c =>
        have h1 : e1 = some (GoError.io c) := ht.1 c hf
        subst h1
        simp
      | none =>
        rcases ht.2 hf with h1 | h1
        · simp only at h1
          subst h1
          exact hr
        · simp only at h1
          subst h1
          have hd : t.isDir = true := walk_not_dir_skip IsExcluded t acc acc1 hw
          simp only [hd, Bool.or_true, Bool.and_true, decide_True, if_true]
          exact hr
end

theorem Walk_eq (IsExcluded : Str → Bool) (root : Node) (acc : List Str) :
    (∀ code, firstFailure IsExcluded root = some code →
      (Walk IsExcluded root acc).2 = some (GoError.io code)) ∧
    (firstFailure IsExcluded root = none →
      Walk IsExcluded root acc = (acc ++ imagesOf (scannedLines IsExcluded root), none)) := by
  have hf := walk_failure IsExcluded root acc
  unfold Walk
  cases hw : walk IsExcluded root acc with
  | mk acc1 e1 =>
    rw [hw] at hf
    have hs := walk_scanned IsExcluded root acc acc1 e1 hw
    constructor
    · intro code hc
      have h1 : e1 = some (GoError.io code) := hf.1 code hc
      subst h1
      rfl
    · intro hn
      rcases hf.2 hn with h1 | h1
      · simp only at h1
        subst h1
        simp only [hs (Or.inl rfl)]
      · simp only at h1
        subst h1
        simp only [hs (Or.inr rfl)]

/-- The outcome of `findTestImages` in full: the first failure of the tree at `apps`,
else the first failure of the tree at `examples/spire`, else the entries of all
scanned lines. -/
theorem findTestImages_eq (IsExcluded : Str → Bool) (apps spire : Node) :
    findTestImages IsExcluded apps spire =
      match firstFailure IsExcluded apps with
      | some code => Except.error (GoError.io code)
      | none =>
        match firstFailure IsExcluded spire with
        | some code => Except.error (GoError.io code)
        | none =>
          Except.ok
            (imagesOf (scannedLines IsExcluded apps ++ scannedLines IsExcluded spire)) := by
  unfold findTestImages
  have h1 := Walk_eq IsExcluded apps []
  cases hf1 : firstFailure IsExcluded apps with
  | some c =>
    have := h1.1 c hf1
    cases hw : Walk IsExcluded apps [] with
    | mk a e =>
      rw [hw] at this
      simp only at this
      subst this
      rfl
  | none =>
    rw [h1.2 hf1]
    simp only [List.nil_append]
    have h2 := Walk_eq IsExcluded spire (imagesOf (scannedLines IsExcluded apps))
    cases hf2 : firstFailure IsExcluded spire with
    | some c =>
      have := h2.1 c hf2
      cases hw : Walk IsExcluded spire (imagesOf (scannedLines IsExcluded apps)) with
      | mk a e =>
        rw [hw] at this
        simp only at this
        subst this
        rfl
    | none =>
      rw [h2.2 hf2, imagesOf_append]

/-! ## Claims on `findTestImages` -/

/-- C7 fails as stated: for two manifests that both reference `alpine` the returned
list holds `docker.io/library/alpine:latest` twice. -/
theorem findTestImages_duplicates_counterexample :
    findTestImages excludeVendor appsTwice spireEmpty =
        Except.ok ["docker.io/library/alpine:latest".toList,
          "docker.io/library/alpine:latest".toList] ∧
      ¬ ["docker.io/library/alpine:latest".toList,
          "docker.io/library/alpine:latest".toList].Nodup := by
  constructor
  · rfl
  · decide

/-- C7, amended: a successful scan returns one entry per matched line of the scanned
files, in scan order, each the canonical form of the capture of its line;
nothing is removed, so the list is as long as the number of matched lines. -/
theorem findTestImages_entry_per_match (IsExcluded : Str → Bool) (apps spire : Node)
    (images : List Str) (h : findTestImages IsExcluded apps spire = Except.ok images) :
    images =
        ((scannedLines IsExcluded apps ++ scannedLines IsExcluded spire).filterMap
          findSubmatch).map fullImageName ∧
      images.length =
        ((scannedLines IsExcluded apps ++ scannedLines IsExcluded spire).filterMap
          findSubmatch).length := by
  have := findTestImages_ok IsExcluded apps spire images h
  unfold imagesOf at this
  refine ⟨this, ?_⟩
  rw [this, List.length_map]

/-- Witness of amended C7 on the two manifests that reference `alpine`. -/
theorem findTestImages_entry_per_match_witness :
    ["docker.io/library/alpine:latest".toList, "docker.io/library/alpine:latest".toList] =
        ((scannedLines excludeVendor appsTwice ++
          scannedLines excludeVendor spireEmpty).filterMap findSubmatch).map fullImageName ∧
      ["docker.io/library/alpine:latest".toList,
          "docker.io/library/alpine:latest".toList].length =
        ((scannedLines excludeVendor appsTwice ++
          scannedLines excludeVendor spireEmpty).filterMap findSubmatch).length :=
  findTestImages_entry_per_match excludeVendor appsTwice spireEmpty _ rfl

/-- C8 fails as stated: the malformed line `image: docker.io/foo/bar:v1:extra`
contributes the empty string to the returned list; the lines and files after it
are scanned and no error is returned. -/
theorem findTestImages_empty_entry_counterexample :
    findTestImages excludeVendor appsMalformed spireEmpty =
        Except.ok [[], "docker.io/library/alpine:latest".toList,
          "docker.io/library/busybox:1.36".toList] ∧
      ([] : Str) ∈ [[], "docker.io/library/alpine:latest".toList,
          "docker.io/library/busybox:1.36".toList] := by
  constructor
  · rfl
  · simp

/-- C8, amended: in a manifest that opens, a matched line whose reference
canonicalises to the drop signal contributes the empty string as its entry, between
the entries of the lines before it and those of the lines after it, and the
callback returns no error. -/
theorem walkFn_malformed_line (IsExcluded : Str → Bool) (name : Str) (data : FileData)
    (before after : List Str) (line raw : Str) (testImages : List Str)
    (hname : hasSuffix name ".yaml".toList = true) (hopen : data.openErr = none)
    (hlines : data.lines = before ++ line :: after)
    (hmatch : findSubmatch line = some raw) (hdrop : fullImageName raw = []) :
    walkFn IsExcluded data (some ⟨name, false⟩) none testImages =
      (testImages ++ imagesOf before ++ [[]] ++ imagesOf after, none) := by
  have hw := walk_file IsExcluded name data testImages
  simp only [walk] at hw
  rw [hw, if_pos hname, hopen, hlines]
  have : imagesOf (before ++ line :: after) = imagesOf before ++ [[]] ++ imagesOf after := by
    rw [imagesOf_append]
    simp [imagesOf, List.filterMap_cons, hmatch, hdrop]
  simp only [this, List.append_assoc]

/-- Witness of amended C8 at a manifest with a malformed line between two
well-formed ones. -/
theorem walkFn_malformed_line_witness :
    walkFn excludeVendor
        ⟨none, ["image: alpine".toList, "image: docker.io/foo/bar:v1:extra".toList,
          "image: busybox".toList], none⟩
        (some ⟨"a.yaml".toList, false⟩) none [] =
      ([] ++ imagesOf ["image: alpine".toList] ++ [[]] ++ imagesOf ["image: busybox".toList],
        none) :=
  walkFn_malformed_line excludeVendor "a.yaml".toList
    ⟨none, ["image: alpine".toList, "image: docker.io/foo/bar:v1:extra".toList,
      "image: busybox".toList], none⟩
    ["image: alpine".toList] ["image: busybox".toList]
    "image: docker.io/foo/bar:v1:extra".toList "docker.io/foo/bar:v1:extra".toList []
    (by decide) rfl rfl (by decide) (by decide)

/-- C9: for a directory with an excluded name the callback returns `SkipDir`, the
walk of that directory adds no entry whatever lies beneath it, and two trees that
differ only beneath directories with an excluded name give the same result of
`findTestImages`. -/
theorem excluded_subtree_contributes_nothing (IsExcluded : Str → Bool)
    (apps apps2 spire spire2 : Node)
    (h1 : agreeOutside IsExcluded apps apps2) (h2 : agreeOutside IsExcluded spire spire2) :
    (∀ name : Str, IsExcluded name = true →
      shouldSkipWithError IsExcluded (some ⟨name, true⟩) none = (true, some GoError.SkipDir)) ∧
    (∀ (name : Str) (children : List Node) (acc : List Str), IsExcluded name = true →
      walk IsExcluded (.dir name none children) acc = (acc, some GoError.SkipDir)) ∧
    findTestImages IsExcluded apps spire = findTestImages IsExcluded apps2 spire2 := by
  refine ⟨?_, ?_, findTestImages_agree IsExcluded apps apps2 spire spire2 h1 h2⟩
  · intro name hx
    simp [shouldSkipWithError, hx]
  · intro name children acc hx
    rw [walk_dir]
    simp [hx]

/-- Witness of C9: the manifest beneath `vendor` changes nothing. -/
theorem excluded_subtree_contributes_nothing_witness :
    findTestImages excludeVendor appsVendored spireEmpty =
      findTestImages excludeVendor appsPruned spireEmpty :=
  (excluded_subtree_contributes_nothing excludeVendor appsVendored appsPruned spireEmpty
    spireEmpty
    ⟨_, rfl, Or.inr ⟨_, _, rfl, ⟨_, rfl, Or.inl rfl⟩, ⟨_, _, rfl, rfl, rfl⟩⟩⟩
    ⟨_, rfl, Or.inr rfl⟩).2.2

/-- C10, the behaviour of the code where the claim fails: the error `scanner.Err()`
of a file that cannot be read to its end never reaches the callback result, and
the scan of a manifest truncated by read error 5 returns the entries read so far
with no error. -/
theorem findTestImages_ignores_read_error :
    (∀ (IsExcluded : Str → Bool) (openErr scanErr : Option Nat) (lines : List Str)
        (info : Option FileInfo) (err : Option GoError) (testImages : List Str),
      walkFn IsExcluded ⟨openErr, lines, scanErr⟩ info err testImages =
        walkFn IsExcluded ⟨openErr, lines, none⟩ info err testImages) ∧
    findTestImages excludeVendor appsTruncated spireEmpty =
      Except.ok ["docker.io/library/alpine:latest".toList] :=
  ⟨fun _ _ _ _ _ _ _ => rfl, rfl⟩


/-! ## Lemmas on the interleavings of `once.Do` -/

theorem onceInv_init (body : Caller → Outcome) : OnceInv body OnceState.init := by
  constructor
  · constructor <;> simp [OnceState.init, Pc.inCrit]
  · constructor <;> simp [OnceState.init]

/-- A move of caller `t` that keeps it inside or keeps it outside the mutex leaves
mutual exclusion intact. -/
theorem mutex_same (held : Bool) (pc : Caller → Pc) (t : Caller) (v : Pc)
    (hv : v.inCrit = (pc t).inCrit) (h : MutexInv held pc) :
    MutexInv held (Function.update pc t v) := by
  have key : ∀ u, (Function.update pc t v u).inCrit = (pc u).inCrit := by
    intro u
    by_cases e : u = t
    · subst e; rw [Function.update_same]; exact hv
    · rw [Function.update_noteq e]
  refine ⟨fun u hu => h.held_of_crit u (key u ▸ hu),
    fun u w hu hw => h.crit_unique u w (key u ▸ hu) (key w ▸ hw), ?_⟩
  intro hh
  obtain ⟨u, hu⟩ := h.crit_of_held hh
  exact ⟨u, (key u).symm ▸ hu⟩

/-- Caller `t` takes the free mutex. -/
theorem mutex_acquire (pc : Caller → Pc) (t : Caller) (v : Pc) (hv : v.inCrit = true)
    (h : MutexInv false pc) : MutexInv true (Function.update pc t v) := by
  have none_crit : ∀ u, u ≠ t → (Function.update pc t v u).inCrit = true → False := by
    intro u e hu
    rw [Function.update_noteq e] at hu
    exact Bool.false_ne_true (h.held_of_crit u hu)
  refine ⟨fun _ _ => rfl, ?_, fun _ => ⟨t, by rw [Function.update_same]; exact hv⟩⟩
  intro u w hu hw
  by_cases e : u = t
  · by_cases e2 : w = t
    · rw [e, e2]
    · exact absurd hw (none_crit w e2)
  · exact absurd hu (none_crit u e)

/-- Caller `t`, who holds the mutex, releases it. -/
theorem mutex_release (held : Bool) (pc : Caller → Pc) (t : Caller) (v : Pc)
    (hv : v.inCrit = false) (ht : (pc t).inCrit = true) (h : MutexInv held pc) :
    MutexInv false (Function.update pc t v) := by
  have none_crit : ∀ u, (Function.update pc t v u).inCrit = true → False := by
    intro u hu
    by_cases e : u = t
    · subst e
      rw [Function.update_same, hv] at hu
      exact Bool.false_ne_true hu
    · rw [Function.update_noteq e] at hu
      exact e (h.crit_unique u t hu ht)
  exact ⟨fun u hu => absurd hu (none_crit u), fun u _ hu _ => absurd hu (none_crit u),
    fun hh => absurd hh Bool.false_ne_true⟩

/-- Caller `t` moves between positions before `f`. -/
theorem runs_early (body : Caller → Outcome) (done : Bool) (runs : List Caller)
    (pc : Caller → Pc) (t : Caller) (v : Pc)
    (ht : pc t = Pc.start ∨ pc t = Pc.wantLock ∨ pc t = Pc.locked)
    (hv : v = Pc.start ∨ v = Pc.wantLock ∨ v = Pc.locked)
    (h : RunsInv body done runs pc) : RunsInv body done runs (Function.update pc t v) := by
  have hne : ∀ u, u ≠ t → Function.update pc t v u = pc u :=
    fun u e => Function.update_noteq e v pc
  have hsame : Function.update pc t v t = v := Function.update_same t v pc
  constructor
  · intro hd hall
    refine h.runs_nil hd (fun u o hu => ?_)
    by_cases e : u = t
    · subst e; rcases ht with ht | ht | ht <;> rw [ht] at hu <;> cases hu
    · exact hall u o (by rw [hne u e]; exact hu)
  · intro u o hu
    by_cases e : u = t
    · subst e; rw [hsame] at hu; rcases hv with hv | hv | hv <;> rw [hv] at hu <;> cases hu
    · rw [hne u e] at hu; exact h.ranF_runs u o hu
  · exact h.done_runs
  · intro u o hu
    by_cases e : u = t
    · subst e; rw [hsame] at hu
      rcases hv with hv | hv | hv <;> rw [hv] at hu <;> rcases hu with hu | hu <;> cases hu
    · rw [hne u e] at hu; exact h.exit_done u o hu
  · intro u hu
    by_cases e : u = t
    · subst e; exact h.early u ht
    · rw [hne u e] at hu; exact h.early u hu

/-- Caller `t` leaves `Do` without running `f`, having seen `done` set. -/
theorem runs_skip (body : Caller → Outcome) (runs : List Caller)
    (pc : Caller → Pc) (t : Caller) (v : Pc)
    (ht : pc t = Pc.start ∨ pc t = Pc.wantLock ∨ pc t = Pc.locked)
    (hv : v = Pc.unlocking Outcome.returned ∨ v = Pc.finished Outcome.returned)
    (h : RunsInv body true runs pc) : RunsInv body true runs (Function.update pc t v) := by
  have hne : ∀ u, u ≠ t → Function.update pc t v u = pc u :=
    fun u e => Function.update_noteq e v pc
  have hsame : Function.update pc t v t = v := Function.update_same t v pc
  constructor
  · intro hd; exact absurd hd.symm Bool.false_ne_true
  · intro u o hu
    by_cases e : u = t
    · subst e; rw [hsame] at hu; rcases hv with hv | hv <;> rw [hv] at hu <;> cases hu
    · rw [hne u e] at hu; exact h.ranF_runs u o hu
  · exact h.done_runs
  · intro u o hu
    by_cases e : u = t
    · subst e
      rw [hsame] at hu
      have hnot : u ∉ runs := h.early u ht
      have ho : o = Outcome.returned := by
        rcases hv with hv | hv <;> rw [hv] at hu <;> rcases hu with hu | hu <;> cases hu <;> rfl
      exact ⟨rfl, by rw [ho, if_neg hnot]⟩
    · rw [hne u e] at hu; exact h.exit_done u o hu
  · intro u hu
    by_cases e : u = t
    · subst e; rw [hsame] at hu
      rcases hv with hv | hv <;> rw [hv] at hu <;> rcases hu with hu | hu | hu <;> cases hu
    · rw [hne u e] at hu; exact h.early u hu

/-- Caller `t`, holding the mutex with `done` unset, executes `f`. -/
theorem runs_execute (body : Caller → Outcome) (held : Bool) (runs : List Caller)
    (pc : Caller → Pc) (t : Caller) (ht : pc t = Pc.locked)
    (hm : MutexInv held pc) (h : RunsInv body false runs pc) :
    RunsInv body false (runs ++ [t]) (Function.update pc t (Pc.ranF (body t))) := by
  have hne : ∀ u, u ≠ t → Function.update pc t (Pc.ranF (body t)) u = pc u :=
    fun u e => Function.update_noteq e _ pc
  have hsame : Function.update pc t (Pc.ranF (body t)) t = Pc.ranF (body t) :=
    Function.update_same t _ pc
  have hcrit : (pc t).inCrit = true := by rw [ht]; rfl
  have hnoran : ∀ u o, pc u ≠ Pc.ranF o := by
    intro u o hu
    have hc : (pc u).inCrit = true := by rw [hu]; rfl
    have := hm.crit_unique u t hc hcrit
    subst this
    rw [ht] at hu
    cases hu
  have hnil : runs = [] := h.runs_nil rfl hnoran
  subst hnil
  constructor
  · intro _ hall
    exact absurd hsame (hall t (body t))
  · intro u o hu
    by_cases e : u = t
    · subst e
      rw [hsame] at hu
      cases hu
      exact ⟨rfl, rfl, rfl⟩
    · rw [hne u e] at hu; exact absurd hu (hnoran u o)
  · intro hd; exact absurd hd Bool.false_ne_true
  · intro u o hu
    by_cases e : u = t
    · subst e; rw [hsame] at hu; rcases hu with hu | hu <;> cases hu
    · rw [hne u e] at hu
      exact absurd (h.exit_done u o hu).1 Bool.false_ne_true
  · intro u hu
    by_cases e : u = t
    · subst e; rw [hsame] at hu; rcases hu with hu | hu | hu <;> cases hu
    · simpa using e

/-- Caller `t`, after `f`, stores `done`. -/
theorem runs_store (body : Caller → Outcome) (done : Bool) (runs : List Caller)
    (pc : Caller → Pc) (t : Caller) (o : Outcome) (ht : pc t = Pc.ranF o)
    (h : RunsInv body done runs pc) :
    RunsInv body true runs (Function.update pc t (Pc.unlocking o)) := by
  have hne : ∀ u, u ≠ t → Function.update pc t (Pc.unlocking o) u = pc u :=
    fun u e => Function.update_noteq e _ pc
  have hsame : Function.update pc t (Pc.unlocking o) t = Pc.unlocking o :=
    Function.update_same t _ pc
  obtain ⟨hruns, ho, hd⟩ := h.ranF_runs t o ht
  subst hd
  constructor
  · intro hd; exact absurd hd.symm Bool.false_ne_true
  · intro u o2 hu
    by_cases e : u = t
    · subst e; rw [hsame] at hu; cases hu
    · rw [hne u e] at hu
      have := (h.ranF_runs u o2 hu).1
      rw [hruns] at this
      exact absurd (List.cons.inj this).1.symm e
  · intro _; exact ⟨t, hruns⟩
  · intro u o2 hu
    by_cases e : u = t
    · subst e
      rw [hsame] at hu
      have ho2 : o2 = o := by rcases hu with hu | hu <;> cases hu; rfl
      refine ⟨rfl, ?_⟩
      rw [ho2, ho, hruns]
      simp
    · rw [hne u e] at hu
      exact absurd (h.exit_done u o2 hu).1 Bool.false_ne_true
  · intro u hu
    by_cases e : u = t
    · subst e; rw [hsame] at hu; rcases hu with hu | hu | hu <;> cases hu
    · rw [hne u e] at hu; exact h.early u hu

/-- Caller `t`, after the store, unlocks and leaves `Do`. -/
theorem runs_finish (body : Caller → Outcome) (done : Bool) (runs : List Caller)
    (pc : Caller → Pc) (t : Caller) (o : Outcome) (ht : pc t = Pc.unlocking o)
    (h : RunsInv body done runs pc) :
    RunsInv body done runs (Function.update pc t (Pc.finished o)) := by
  have hne : ∀ u, u ≠ t → Function.update pc t (Pc.finished o) u = pc u :=
    fun u e => Function.update_noteq e _ pc
  have hsame : Function.update pc t (Pc.finished o) t = Pc.finished o :=
    Function.update_same t _ pc
  have hexit := h.exit_done t o (Or.inl ht)
  constructor
  · intro hd; rw [hexit.1] at hd; exact absurd hd.symm Bool.false_ne_true
  · intro u o2 hu
    by_cases e : u = t
    · subst e; rw [hsame] at hu; cases hu
    · rw [hne u e] at hu; exact h.ranF_runs u o2 hu
  · exact h.done_runs
  · intro u o2 hu
    by_cases e : u = t
    · subst e
      rw [hsame] at hu
      have ho2 : o2 = o := by rcases hu with hu | hu <;> cases hu; rfl
      rw [ho2]; exact hexit
    · rw [hne u e] at hu; exact h.exit_done u o2 hu
  · intro u hu
    by_cases e : u = t
    · subst e; rw [hsame] at hu; rcases hu with hu | hu | hu <;> cases hu
    · rw [hne u e] at hu; exact h.early u hu

theorem onceStep_inv (body : Caller → Outcome) (t : Caller) (s : OnceState)
    (h : OnceInv body s) : OnceInv body (onceStep body t s) := by
  obtain ⟨hm, hr⟩ := h
  obtain ⟨done, held, runs, pc⟩ := s
  simp only at hm hr
  unfold onceStep
  simp only
  cases hpc : pc t with
  | start =>
    cases done with
    | true =>
      exact ⟨mutex_same held pc t _ (by rw [hpc]; rfl) hm,
        runs_skip body runs pc t _ (Or.inl hpc) (Or.inr rfl) hr⟩
    | false =>
      exact ⟨mutex_same held pc t _ (by rw [hpc]; rfl) hm,
        runs_early body false runs pc t _ (Or.inl hpc) (Or.inr (Or.inl rfl)) hr⟩
  | wantLock =>
    cases held with
    | true => exact ⟨hm, hr⟩
    | false =>
      exact ⟨mutex_acquire pc t _ rfl hm,
        runs_early body done runs pc t _ (Or.inr (Or.inl hpc)) (Or.inr (Or.inr rfl)) hr⟩
  | locked =>
    cases done with
    | true =>
      exact ⟨mutex_same held pc t _ (by rw [hpc]; rfl) hm,
        runs_skip body runs pc t _ (Or.inr (Or.inr hpc)) (Or.inl rfl) hr⟩
    | false =>
      exact ⟨mutex_same held pc t _ (by rw [hpc]; rfl) hm,
        runs_execute body held runs pc t hpc hm hr⟩
  | ranF o =>
    exact ⟨mutex_same held pc t _ (by rw [hpc]; rfl) hm, runs_store body done runs pc t o hpc hr⟩
  | unlocking o =>
    exact ⟨mutex_release held pc t _ rfl (by rw [hpc]; rfl) hm,
      runs_finish body done runs pc t o hpc hr⟩
  | finished o => exact ⟨hm, hr⟩

theorem onceExec_inv (body : Caller → Outcome) (schedule : List Caller) (s : OnceState)
    (h : OnceInv body s) : OnceInv body (onceExec body schedule s) := by
  induction schedule generalizing s with
  | nil => exact h
  | cons t rest ih => exact ih _ (onceStep_inv body t s h)

theorem onceExec_append (body : Caller → Outcome) (a b : List Caller) (s : OnceState) :
    onceExec body (a ++ b) s = onceExec body b (onceExec body a s) := by
  induction a generalizing s with
  | nil => rfl
  | cons t rest ih => exact ih _

/-- Under the invariant there is at most one run, and once both callers are out of
`Do` there is exactly one: the caller that ran carries the outcome of its body and
the other one `returned`. -/
theorem onceInv_final (body : Caller → Outcome) (s : OnceState) (h : OnceInv body s) :
    s.runs.length ≤ 1 ∧
      ((∀ t, (s.pc t).isFinished = true) →
        ∃ t, s.runs = [t] ∧ s.pc t = Pc.finished (body t) ∧
          ∀ u, u ≠ t → s.pc u = Pc.finished Outcome.returned) := by
  obtain ⟨hm, hr⟩ := h
  constructor
  · cases hd : s.done with
    | true =>
      obtain ⟨t, ht⟩ := hr.done_runs hd
      rw [ht]; simp
    | false =>
      by_cases hex : ∃ t o, s.pc t = Pc.ranF o
      · obtain ⟨t, o, ht⟩ := hex
        rw [(hr.ranF_runs t o ht).1]; simp
      · have : s.runs = [] :=
          hr.runs_nil hd (fun t o ht => hex ⟨t, o, ht⟩)
        rw [this]; simp
  · intro hall
    have hfin : ∀ t, ∃ o, s.pc t = Pc.finished o := by
      intro t
      have := hall t
      cases hp : s.pc t with
      | finished o => exact ⟨o, rfl⟩
      | start => rw [hp] at this; cases this
      | wantLock => rw [hp] at this; cases this
      | locked => rw [hp] at this; cases this
      | ranF o => rw [hp] at this; cases this
      | unlocking o => rw [hp] at this; cases this
    obtain ⟨o1, h1⟩ := hfin Caller.first
    have hd : s.done = true := (hr.exit_done _ o1 (Or.inr h1)).1
    obtain ⟨t, ht⟩ := hr.done_runs hd
    refine ⟨t, ht, ?_, ?_⟩
    · obtain ⟨o, ho⟩ := hfin t
      have := (hr.exit_done t o (Or.inr ho)).2
      rw [ht] at this
      simp only [List.mem_singleton, if_true] at this
      rw [ho, this]
    · intro u hu
      obtain ⟨o, ho⟩ := hfin u
      have := (hr.exit_done u o (Or.inr ho)).2
      rw [ht] at this
      simp only [List.mem_singleton, hu, if_false] at this
      rw [ho, this]

/-- A step either leaves the state as it is or moves the stepping caller forward and
nobody else. -/
theorem onceStep_rank (body : Caller → Outcome) (t : Caller) (s : OnceState) :
    (∀ u, u ≠ t → (onceStep body t s).pc u = s.pc u) ∧
      (s.pc t).rank ≤ ((onceStep body t s).pc t).rank := by
  obtain ⟨done, held, runs, pc⟩ := s
  cases hpc : pc t with
  | start =>
    cases done <;> simp only [onceStep, hpc, if_true, if_false, Bool.false_eq_true] <;>
      exact ⟨fun u e => Function.update_noteq e _ pc, by
        rw [Function.update_same]; simp [Pc.rank]⟩
  | wantLock =>
    cases held <;> simp only [onceStep, hpc, if_true, if_false, Bool.false_eq_true]
    · exact ⟨fun u e => Function.update_noteq e _ pc, by
        rw [Function.update_same]; simp [Pc.rank]⟩
    · exact ⟨fun _ _ => trivial, Nat.le_refl _⟩
  | locked =>
    cases done <;> simp only [onceStep, hpc, if_true, if_false, Bool.false_eq_true] <;>
      exact ⟨fun u e => Function.update_noteq e _ pc, by
        rw [Function.update_same]; simp [Pc.rank]⟩
  | ranF o =>
    simp only [onceStep, hpc]
    exact ⟨fun u e => Function.update_noteq e _ pc, by
      rw [Function.update_same]; simp [Pc.rank]⟩
  | unlocking o =>
    simp only [onceStep, hpc]
    exact ⟨fun u e => Function.update_noteq e _ pc, by
      rw [Function.update_same]; simp [Pc.rank]⟩
  | finished o =>
    simp only [onceStep, hpc]
    exact ⟨fun _ _ => trivial, Nat.le_refl _⟩

/-- A caller that is not out of `Do` and is not waiting for a held mutex moves
strictly forward when it steps. -/
theorem onceStep_progress (body : Caller → Outcome) (t : Caller) (s : OnceState)
    (hfin : (s.pc t).isFinished = false) (hwait : s.pc t = Pc.wantLock → s.held = false) :
    (s.pc t).rank < ((onceStep body t s).pc t).rank := by
  obtain ⟨done, held, runs, pc⟩ := s
  simp only at hfin hwait
  cases hpc : pc t with
  | start =>
    cases done <;> simp only [onceStep, hpc, if_true, if_false, Bool.false_eq_true] <;>
      rw [Function.update_same] <;> simp [Pc.rank]
  | wantLock =>
    rw [hwait hpc]
    simp only [onceStep, hpc, if_false, Bool.false_eq_true]
    rw [Function.update_same]; simp [Pc.rank]
  | locked =>
    cases done <;> simp only [onceStep, hpc, if_true, if_false, Bool.false_eq_true] <;>
      rw [Function.update_same] <;> simp [Pc.rank]
  | ranF o => simp only [onceStep, hpc]; rw [Function.update_same]; simp [Pc.rank]
  | unlocking o => simp only [onceStep, hpc]; rw [Function.update_same]; simp [Pc.rank]
  | finished o => rw [hpc] at hfin; cases hfin

/-- No deadlock: while a caller is still inside `Do`, some caller moves strictly
forward when it steps. -/
theorem once_enabled (body : Caller → Outcome) (s : OnceState) (h : OnceInv body s)
    (t : Caller) (ht : (s.pc t).isFinished = false) :
    ∃ u, (s.pc u).rank < ((onceStep body u s).pc u).rank := by
  by_cases hw : s.pc t = Pc.wantLock ∧ s.held = true
  · obtain ⟨u, hu⟩ := h.mutex.crit_of_held hw.2
    refine ⟨u, onceStep_progress body u s ?_ ?_⟩
    · cases hp : s.pc u <;> rw [hp] at hu <;> first | rfl | cases hu
    · intro hp; rw [hp] at hu; cases hu
  · refine ⟨t, onceStep_progress body t s ht ?_⟩
    intro hp
    cases hh : s.held with
    | false => rfl
    | true => exact absurd ⟨hp, hh⟩ hw

theorem Pc.rank_le (p : Pc) : p.rank ≤ 5 := by
  cases p <;> simp [Pc.rank]

theorem Pc.isFinished_of_rank (p : Pc) (h : 5 ≤ p.rank) : p.isFinished = true := by
  cases p <;> first | rfl | (simp [Pc.rank] at h)

/-- Every state that satisfies the invariant can be run to the end: some continuation
of the schedule brings both callers out of `Do`. -/
theorem once_completes (body : Caller → Outcome) :
    ∀ (n : Nat) (s : OnceState), OnceInv body s →
      10 - ((s.pc Caller.first).rank + (s.pc Caller.second).rank) ≤ n →
      ∃ more, ∀ t, ((onceExec body more s).pc t).isFinished = true := by
  intro n
  induction n with
  | zero =>
    intro s _ hn
    refine ⟨[], fun t => ?_⟩
    have h1 := Pc.rank_le (s.pc Caller.first)
    have h2 := Pc.rank_le (s.pc Caller.second)
    show (s.pc t).isFinished = true
    cases t
    · exact Pc.isFinished_of_rank _ (by omega)
    · exact Pc.isFinished_of_rank _ (by omega)
  | succ n ih =>
    intro s hs hn
    by_cases hall : ∀ t, (s.pc t).isFinished = true
    · exact ⟨[], hall⟩
    · have hex : ∃ t, (s.pc t).isFinished = false := by
        by_contra hc
        apply hall
        intro t
        cases hf : (s.pc t).isFinished with
        | true => rfl
        | false => exact absurd ⟨t, hf⟩ hc
      obtain ⟨t, ht⟩ := hex
      obtain ⟨u, hu⟩ := once_enabled body s hs t ht
      have hrank := onceStep_rank body u s
      have hmeasure :
          10 - (((onceStep body u s).pc Caller.first).rank +
            ((onceStep body u s).pc Caller.second).rank) ≤ n := by
        have h1 := Pc.rank_le ((onceStep body u s).pc Caller.first)
        have h2 := Pc.rank_le ((onceStep body u s).pc Caller.second)
        cases u
        · have := hrank.1 Caller.second (by decide)
          rw [this] at h2 ⊢
          omega
        · have := hrank.1 Caller.first (by decide)
          rw [this] at h1 ⊢
          omega
      obtain ⟨more, hmore⟩ := ih (onceStep body u s) (onceStep_inv body u s hs) hmeasure
      exact ⟨u :: more, hmore⟩

/-! ## Lemmas on `SetupSuite` -/

theorem setupSuites_done (IsExcluded : Str → Bool) (tpl : Templates) (calls : List Call) :
    setupSuites IsExcluded tpl true calls =
      (true, calls.map (fun _ => (([] : List Event), Outcome.returned))) := by
  induction calls with
  | nil => rfl
  | cons c rest ih => simp [setupSuites, SetupSuite, ih]

theorem runAll_events (runFails : Nat → Bool) (dir : Str) (cmds : List Str) (n : Nat) :
    ∀ e ∈ (runAll runFails dir n cmds).1, ∃ cmd, e = Event.run dir cmd := by
  induction cmds generalizing n with
  | nil => simp [runAll]
  | cons cmd rest ih =>
    intro e he
    simp only [runAll] at he
    cases hf : runFails n with
    | true =>
      simp only [hf, if_true, List.mem_singleton] at he
      exact ⟨cmd, he⟩
    | false =>
      simp only [hf, Bool.false_eq_true, if_false, List.mem_cons] at he
      rcases he with he | he
      · exact ⟨cmd, he⟩
      · exact ih (n + 1) e he

/-- The removal of the workspace is among the events of the body exactly when the
body ends by returning. -/
theorem prefetchBody_removeAll_iff (IsExcluded : Str → Bool) (tpl : Templates) (c : Call) :
    Event.removeAll c.tmpDir ∈ (prefetchBody IsExcluded tpl c).1 ↔
      (prefetchBody IsExcluded tpl c).2 = Outcome.returned := by
  unfold prefetchBody
  cases findTestImages IsExcluded c.apps c.spire with
  | error e => simp
  | ok testImages =>
    cases c.mkdirErr with
    | some code => simp
    | none =>
      simp only
      have hev := runAll_events c.runFails c.tmpDir (commands tpl testImages) 0
      cases hr : runAll c.runFails c.tmpDir 0 (commands tpl testImages) with
      | mk events ok =>
        rw [hr] at hev
        have hnot : Event.removeAll c.tmpDir ∉ events := by
          intro hmem
          obtain ⟨cmd, hc⟩ := hev _ hmem
          cases hc
        cases ok with
        | true => simp
        | false => simp [hnot]

/-! ## Claims on `SetupSuite` -/

/-- C11: in a sequence of invocations of `SetupSuite` in one process only the first
one runs the protocol; it sets the guard whatever its outcome, the guard is never
reset, and every later invocation issues no event and returns.  In the example
the first invocation fails at the readiness wait and the second one still does
nothing. -/
theorem setupSuites_run_once :
    (∀ (IsExcluded : Str → Bool) (tpl : Templates) (c : Call) (rest : List Call),
      setupSuites IsExcluded tpl false (c :: rest) =
        (true, prefetchBody IsExcluded tpl c ::
          rest.map (fun _ => (([] : List Event), Outcome.returned)))) ∧
    (∀ (IsExcluded : Str → Bool) (tpl : Templates) (c : Call),
      (SetupSuite IsExcluded tpl false c).1 = true) ∧
    (∀ (IsExcluded : Str → Bool) (tpl : Templates) (calls : List Call),
      setupSuites IsExcluded tpl true calls =
        (true, calls.map (fun _ => (([] : List Event), Outcome.returned)))) ∧
    (prefetchBody excludeVendor tplExample callWaitFails).2 = Outcome.failed ∧
    setupSuites excludeVendor tplExample false [callWaitFails, callOk] =
      (true, [prefetchBody excludeVendor tplExample callWaitFails, ([], Outcome.returned)]) := by
  refine ⟨?_, ?_, ?_, by decide, by rfl⟩
  · intro IsExcluded tpl c rest
    simp [setupSuites, SetupSuite, setupSuites_done]
  · intro IsExcluded tpl c
    simp [SetupSuite]
  · intro IsExcluded tpl calls
    exact setupSuites_done IsExcluded tpl calls

/-- C12 fails as stated: the first caller runs the protocol, which fails at the
readiness wait, and the second caller, interleaved with it, leaves `SetupSuite` by
returning. -/
theorem concurrentSetupSuite_outcomes_counterexample :
    (concurrentSetupSuite excludeVendor tplExample callsFirstFails scheduleInterleaved).runs =
        [Caller.first] ∧
      (concurrentSetupSuite excludeVendor tplExample callsFirstFails scheduleInterleaved).pc
          Caller.first = Pc.finished Outcome.failed ∧
      (concurrentSetupSuite excludeVendor tplExample callsFirstFails scheduleInterleaved).pc
          Caller.second = Pc.finished Outcome.returned := by
  decide

/-- C12, amended: under every interleaving of two concurrent invocations the protocol
is run at most once; when both callers have left `SetupSuite` it has run exactly
once, the caller that ran it observes its outcome and the other caller returns;
and every interleaving can be continued until both callers have left. -/
theorem concurrentSetupSuite_single_run (IsExcluded : Str → Bool) (tpl : Templates)
    (calls : Caller → Call) (schedule : List Caller) :
    (concurrentSetupSuite IsExcluded tpl calls schedule).runs.length ≤ 1 ∧
    ((∀ t, ((concurrentSetupSuite IsExcluded tpl calls schedule).pc t).isFinished = true) →
      ∃ t, (concurrentSetupSuite IsExcluded tpl calls schedule).runs = [t] ∧
        (concurrentSetupSuite IsExcluded tpl calls schedule).pc t =
          Pc.finished (prefetchBody IsExcluded tpl (calls t)).2 ∧
        ∀ u, u ≠ t →
          (concurrentSetupSuite IsExcluded tpl calls schedule).pc u =
            Pc.finished Outcome.returned) ∧
    (∃ more, ∀ t,
      ((concurrentSetupSuite IsExcluded tpl calls (schedule ++ more)).pc t).isFinished =
        true) := by
  have hinv : OnceInv (fun t => (prefetchBody IsExcluded tpl (calls t)).2)
      (concurrentSetupSuite IsExcluded tpl calls schedule) :=
    onceExec_inv _ schedule _ (onceInv_init _)
  refine ⟨(onceInv_final _ _ hinv).1, (onceInv_final _ _ hinv).2, ?_⟩
  obtain ⟨more, hmore⟩ := once_completes _ _ _ hinv (Nat.le_refl _)
  refine ⟨more, ?_⟩
  unfold concurrentSetupSuite
  rw [onceExec_append]
  exact hmore

/-- Witness of amended C12 on the interleaved schedule with a failing first caller. -/
theorem concurrentSetupSuite_single_run_witness :
    ∃ t, (concurrentSetupSuite excludeVendor tplExample callsFirstFails
          scheduleInterleaved).runs = [t] ∧
      (concurrentSetupSuite excludeVendor tplExample callsFirstFails scheduleInterleaved).pc t =
        Pc.finished (prefetchBody excludeVendor tplExample (callsFirstFails t)).2 ∧
      ∀ u, u ≠ t →
        (concurrentSetupSuite excludeVendor tplExample callsFirstFails scheduleInterleaved).pc
          u = Pc.finished Outcome.returned :=
  (concurrentSetupSuite_single_run excludeVendor tplExample callsFirstFails
    scheduleInterleaved).2.1 (fun t => by cases t <;> rfl)

/-- C13, the behaviour of the code where the claim fails: the removal of the workspace
is an event of the run exactly when the run ends by returning, so a failed run
leaves the workspace behind, while the error of the removal has no influence; in
the example the readiness wait fails after the
workspace was created, and no removal follows. -/
theorem prefetchBody_failed_keeps_workspace :
    (∀ (IsExcluded : Str → Bool) (tpl : Templates) (c : Call),
      Event.removeAll c.tmpDir ∈ (prefetchBody IsExcluded tpl c).1 ↔
        (prefetchBody IsExcluded tpl c).2 = Outcome.returned) ∧
    (∀ (IsExcluded : Str → Bool) (tpl : Templates) (c : Call) (err : Option Nat),
      prefetchBody IsExcluded tpl { c with removeErr := err } = prefetchBody IsExcluded tpl c) ∧
    (prefetchBody excludeVendor tplExample callWaitFails).2 = Outcome.failed ∧
    Event.mkdirAll "tmp-2".toList ∈ (prefetchBody excludeVendor tplExample callWaitFails).1 ∧
    (prefetchBody excludeVendor tplExample callWaitFails).1.getLast? =
      some (Event.run "tmp-2".toList
        "kubectl -n prefetch wait --timeout=10m --for=condition=ready pod -l app=prefetch".toList) ∧
    Event.removeAll "tmp-2".toList ∉ (prefetchBody excludeVendor tplExample callWaitFails).1 := by
  refine ⟨prefetchBody_removeAll_iff, fun _ _ _ _ => rfl, by decide, by decide, by decide,
    by decide⟩

/-! ## Lemmas on line matching -/

theorem run_lits {α : Type} (text : Str) (r : Regex) (s : Str) (cap : Option Str)
    (k : Str → Option Str → Option α) :
    (Regex.lits text r).run s cap k =
      if text.isPrefixOf s then r.run (s.drop text.length) cap k else none := by
  induction text generalizing s with
  | nil => simp [Regex.lits]
  | cons c cs ih =>
    cases s with
    | nil => simp [Regex.lits, Regex.run]
    | cons x xs =>
      simp only [Regex.lits, Regex.run, ih, List.isPrefixOf, List.length_cons,
        List.drop_succ_cons]
      by_cases hx : x = c
      · subst hx; simp
      · have : (c == x) = false := by simpa using Ne.symm hx
        simp [hx, this]

theorem starAny_all {α : Type} (k : Str → Option α) (s : Str) (hnl : '\n' ∉ s)
    (hk : ∀ x, (k x).isSome = true) : starAny k s = k [] := by
  induction s with
  | nil => rfl
  | cons c cs ih =>
    have hc : c ≠ '\n' := fun e => hnl (by simp [e])
    have hcs : '\n' ∉ cs := fun e => hnl (by simp [e])
    simp only [starAny, if_neg hc, ih hcs]
    cases hk0 : k [] with
    | some r => rfl
    | none => have := hk []; rw [hk0] at this; cases this

theorem run_seq_anyStar {α : Type} (r : Regex) (s : Str) (cap : Option Str)
    (k : Str → Option Str → Option α) :
    (Regex.seq Regex.anyStar r).run s cap k = starAny (fun rest => r.run rest cap k) s := by
  simp only [Regex.run]

theorem run_group_anyStar (s : Str) (hnl : '\n' ∉ s) :
    (Regex.group Regex.anyStar).run s none (fun _ cap => some cap) = some (some s) := by
  simp only [Regex.run]
  rw [starAny_all (fun rest => some (some (s.take (s.length - rest.length)))) s hnl
    (fun _ => rfl)]
  simp

theorem not_mem_drop {s : Str} {c : Char} (n : Nat) (h : c ∉ s) : c ∉ s.drop n :=
  fun hm => h (List.mem_of_mem_drop hm)

theorem matchAt_imagePattern (s : Str) (hnl : '\n' ∉ s) :
    imagePattern.matchAt s = (findSubmatch s).map some := by
  unfold Regex.matchAt imagePattern
  rw [run_seq_anyStar]
  induction s with
  | nil =>
    simp only [starAny, run_lits, findSubmatch]
    rfl
  | cons c cs ih =>
    have hc : c ≠ '\n' := fun e => hnl (by simp [e])
    have hcs : '\n' ∉ cs := fun e => hnl (by simp [e])
    simp only [starAny, if_neg hc, ih hcs, findSubmatch]
    cases findSubmatch cs with
    | some image => rfl
    | none =>
      simp only [Option.map_none', run_lits]
      by_cases hp : imageToken.isPrefixOf (c :: cs) = true
      · rw [if_pos hp, if_pos hp, run_group_anyStar _ (not_mem_drop _ hnl)]
        rfl
      · rw [if_neg hp, if_neg hp]
        rfl

theorem findSubmatch_tail_none (c : Char) (cs : Str) (h : findSubmatch (c :: cs) = none) :
    findSubmatch cs = none := by
  simp only [findSubmatch] at h
  cases hcs : findSubmatch cs with
  | none => rfl
  | some image => rw [hcs] at h; cases h

theorem find_imagePattern (s : Str) (hnl : '\n' ∉ s) :
    imagePattern.find s = (findSubmatch s).map some := by
  induction s with
  | nil => exact matchAt_imagePattern [] hnl
  | cons c cs ih =>
    have hcs : '\n' ∉ cs := fun e => hnl (by simp [e])
    simp only [Regex.find, matchAt_imagePattern (c :: cs) hnl]
    cases hf : findSubmatch (c :: cs) with
    | some image => rfl
    | none =>
      simp only [Option.map_none']
      rw [ih hcs, findSubmatch_tail_none c cs hf]
      rfl

/-- On a line without newline the regular expression and `findSubmatch` agree. -/
theorem submatch_imagePattern (line : Str) (hnl : '\n' ∉ line) :
    imagePattern.submatch line = findSubmatch line := by
  unfold Regex.submatch
  rw [find_imagePattern line hnl]
  cases findSubmatch line <;> rfl

theorem findSubmatch_eq_none_iff (line : Str) :
    findSubmatch line = none ↔ ¬ imageToken <:+: line := by
  induction line with
  | nil =>
    simp only [findSubmatch, true_iff]
    intro h
    have := List.eq_nil_of_infix_nil h
    cases this
  | cons c cs ih =>
    rw [List.infix_cons_iff, not_or, ← ih]
    simp only [findSubmatch]
    cases findSubmatch cs with
    | some image => simp
    | none =>
      by_cases hp : imageToken.isPrefixOf (c :: cs) = true
      · have := List.isPrefixOf_iff_prefix.mp hp
        simp [hp, this]
      · have : ¬ imageToken <+: c :: cs := fun h => hp (List.isPrefixOf_iff_prefix.mpr h)
        simp [hp, this]

/-- A capture of `findSubmatch` is the text after the last `image: ` of the line. -/
theorem findSubmatch_some (line raw : Str) (h : findSubmatch line = some raw) :
    ∃ pre, line = pre ++ imageToken ++ raw ∧
      ∀ pre2 post2, line = pre2 ++ imageToken ++ post2 → pre2.length ≤ pre.length := by
  induction line with
  | nil => simp [findSubmatch] at h
  | cons c cs ih =>
    simp only [findSubmatch] at h
    cases hcs : findSubmatch cs with
    | some image =>
      rw [hcs] at h
      simp only [Option.some.injEq] at h
      subst h
      obtain ⟨pre, hpre, hlast⟩ := ih hcs
      refine ⟨c :: pre, by rw [hpre]; simp, ?_⟩
      intro pre2 post2 h2
      cases pre2 with
      | nil => simp
      | cons x p2 =>
        simp only [List.cons_append, List.cons.injEq] at h2
        have := hlast p2 post2 (by rw [h2.2])
        simp only [List.length_cons]
        omega
    | none =>
      rw [hcs] at h
      by_cases hp : imageToken.isPrefixOf (c :: cs) = true
      · rw [if_pos hp] at h
        simp only [Option.some.injEq] at h
        subst h
        have hpre := List.prefix_iff_eq_append.mp (List.isPrefixOf_iff_prefix.mp hp)
        refine ⟨[], by simpa using hpre.symm, ?_⟩
        intro pre2 post2 h2
        cases pre2 with
        | nil => simp
        | cons x p2 =>
          simp only [List.cons_append, List.cons.injEq] at h2
          have hin : imageToken <:+: cs := ⟨p2, post2, by rw [h2.2]⟩
          exact absurd hin ((findSubmatch_eq_none_iff cs).mp hcs)
      · rw [if_neg hp] at h
        cases h

/-! ## Claims on line matching and on the default-registry forms -/

/-- C14: on a line of a scanned file (a line has no newline) the regular expression
`.*image: (?P<image>.*)` gives what `findSubmatch` gives; a line without the
substring `image: ` contributes no entry; a line with it contributes exactly one
entry, `fullImageName` of the untrimmed text after the last `image: ` up to the end
of the line. -/
theorem scanLines_line (line : Str) (testImages : List Str) (hnl : '\n' ∉ line) :
    imagePattern.submatch line = findSubmatch line ∧
    (¬ imageToken <:+: line →
      findSubmatch line = none ∧ scanLines [line] testImages = testImages) ∧
    (imageToken <:+: line →
      ∃ pre raw, line = pre ++ imageToken ++ raw ∧
        (∀ pre2 post2, line = pre2 ++ imageToken ++ post2 → pre2.length ≤ pre.length) ∧
        findSubmatch line = some raw ∧
        scanLines [line] testImages = testImages ++ [fullImageName raw]) := by
  refine ⟨submatch_imagePattern line hnl, ?_, ?_⟩
  · intro hno
    have hn := (findSubmatch_eq_none_iff line).mpr hno
    exact ⟨hn, by simp [scanLines, hn]⟩
  · intro hin
    cases hf : findSubmatch line with
    | none => exact absurd hin ((findSubmatch_eq_none_iff line).mp hf)
    | some raw =>
      obtain ⟨pre, hpre, hlast⟩ := findSubmatch_some line raw hf
      exact ⟨pre, raw, hpre, hlast, rfl, by simp [scanLines, hf]⟩

/-- Witness of C14 on a line with two occurrences of `image: ` and trailing blanks:
the entry comes from the text after the second one, blanks included. -/
theorem scanLines_line_witness :
    imagePattern.submatch "# image: old  image: alpine:3.18  ".toList =
        findSubmatch "# image: old  image: alpine:3.18  ".toList ∧
      findSubmatch "# image: old  image: alpine:3.18  ".toList = some "alpine:3.18  ".toList ∧
      ∃ pre raw, "# image: old  image: alpine:3.18  ".toList = pre ++ imageToken ++ raw ∧
        (∀ pre2 post2, "# image: old  image: alpine:3.18  ".toList =
          pre2 ++ imageToken ++ post2 → pre2.length ≤ pre.length) ∧
        findSubmatch "# image: old  image: alpine:3.18  ".toList = some raw ∧
        scanLines ["# image: old  image: alpine:3.18  ".toList] [] =
          [] ++ [fullImageName raw] :=
  ⟨(scanLines_line "# image: old  image: alpine:3.18  ".toList [] (by decide)).1,
    by decide,
    (scanLines_line "# image: old  image: alpine:3.18  ".toList [] (by decide)).2.2
      ⟨"# ".toList, "old  image: alpine:3.18  ".toList, rfl⟩⟩

/-- C15: for a string `s` without `/` the three forms `s`, `docker.io/s` and
`docker.io/library/s` have the same result of `fullImageName`, the drop signal
included. -/
theorem fullImageName_default_forms (s : Str) (h : '/' ∉ s) :
    fullImageName s = fullImageName ("docker.io/".toList ++ s) ∧
      fullImageName ("docker.io/".toList ++ s) =
        fullImageName ("docker.io/library/".toList ++ s) := by
  have hr : containsRune s '/' = false := by
    cases hc : containsRune s '/' with
    | false => rfl
    | true => exact absurd (containsRune_iff.mp hc) h
  have h1 : splitDomain s = (defaultDomain, s) := by
    unfold splitDomain
    rw [indexRune_eq_none.mpr h]
  have h2 : splitDomain ("docker.io/".toList ++ s) = (defaultDomain, s) :=
    splitDomain_append defaultDomain s defaultDomain_facts.1 defaultDomain_facts.2.1
  have h3 : splitDomain ("docker.io/library/".toList ++ s) =
      (defaultDomain, officialLib ++ "/".toList ++ s) :=
    splitDomain_append defaultDomain (officialLib ++ "/".toList ++ s) defaultDomain_facts.1
      defaultDomain_facts.2.1
  have ha : addLibrary defaultDomain s = officialLib ++ "/".toList ++ s := by
    unfold addLibrary
    simp [hr]
  have hb : addLibrary defaultDomain (officialLib ++ "/".toList ++ s) =
      officialLib ++ "/".toList ++ s :=
    addLibrary_of_slash _ _ (fun _ => by simp)
  constructor
  · rw [fullImageName_eq s, fullImageName_eq ("docker.io/".toList ++ s), h1, h2]
  · rw [fullImageName_eq ("docker.io/".toList ++ s),
      fullImageName_eq ("docker.io/library/".toList ++ s), h2, h3]
    simp only [ha, hb]

/-- Witness of C15 at `alpine:3.18`, and at `a:b:c` where all three forms are
dropped. -/
theorem fullImageName_default_forms_witness :
    (fullImageName "alpine:3.18".toList = fullImageName "docker.io/alpine:3.18".toList ∧
      fullImageName "docker.io/alpine:3.18".toList =
        fullImageName "docker.io/library/alpine:3.18".toList) ∧
    (fullImageName "a:b:c".toList = fullImageName "docker.io/a:b:c".toList ∧
      fullImageName "docker.io/a:b:c".toList =
        fullImageName "docker.io/library/a:b:c".toList) ∧
    fullImageName "a:b:c".toList = [] :=
  ⟨fullImageName_default_forms "alpine:3.18".toList (by decide),
    fullImageName_default_forms "a:b:c".toList (by decide), by decide⟩

end Prefetch
